import Mathlib

/-!
Verification development for the ibi-portfolio-manager repository.

The development shallowly embeds the three core components of the
repository — the generic sortable/filterable table engine
(`src/SortableTable.tsx`, second component definition in the file),
the two-tier rate-limited quote cache (`src/stockPriceService.ts`) and
the ledger aggregation views (`src/App.tsx`, `src/StockDetail.tsx`) —
as executable Lean definitions, and proves the specified properties
about them.

Modelling conventions, used throughout:

* Numeric-as-text cell values are parsed into exact rationals (`ℚ`).
  The source uses IEEE doubles; none of the verified properties
  depends on rounding, and every concrete input in this file is
  exactly representable.
* JavaScript library functions (`String.prototype.trim`,
  `toLowerCase`, `includes`, `localeCompare`, `Number`, `parseFloat`,
  `Array.prototype.sort`) are modelled by executable Lean functions
  that agree with the ECMAScript semantics on the input space this
  code base feeds them (plain decimal literals, ASCII search strings,
  consistent comparators).  Each model carries a doc comment stating
  its scope.
* Stateful code (the module-level caches, React `useState`) is
  embedded by explicit state passing.
-/

namespace JsModel

/-- The whitespace characters that occur in this code base
(space, tab, line feed, carriage return); `String.prototype.trim`
and `Number` strip exactly these in our model. -/
def isWs (c : Char) : Bool := c = ' ' || c = '\t' || c = '\n' || c = '\r'

/-- Drop leading whitespace from a character list. -/
def trimL : List Char → List Char
  | [] => []
  | c :: cs => if isWs c then trimL cs else c :: cs

/-- Drop leading and trailing whitespace. -/
def trimChars (l : List Char) : List Char :=
  (trimL (trimL l).reverse).reverse

/-- Model of `String.prototype.trim`. -/
def jsTrim (s : String) : String := ⟨trimChars s.data⟩

/-- Model of `String.prototype.toLowerCase`, restricted to the ASCII
letters this code base lower-cases. -/
def jsLower (s : String) : String := ⟨s.data.map Char.toLower⟩

/-- Does `l` start with `p`? -/
def startsWithL : List Char → List Char → Bool
  | _, [] => true
  | [], _ :: _ => false
  | a :: as, b :: bs => a == b && startsWithL as bs

/-- Does the first list contain the second as a contiguous sublist? -/
def containsL : List Char → List Char → Bool
  | [], needle => startsWithL [] needle
  | a :: as, needle => startsWithL (a :: as) needle || containsL as needle

/-- Model of `String.prototype.includes`. -/
def jsIncludes (hay needle : String) : Bool := containsL hay.data needle.data

/-- Numeric value of a digit string, most significant digit first. -/
def natOfDigits (l : List Char) : Nat :=
  l.foldl (fun n c => n * 10 + (c.toNat - 48)) 0

/-- Are all characters decimal digits? -/
def allDigits (l : List Char) : Bool := l.all Char.isDigit

/-- Value of an unsigned decimal literal with integer part `ip` and
fraction part `fp`. -/
def decOfParts (ip fp : List Char) : ℚ :=
  (natOfDigits ip : ℚ) + (natOfDigits fp : ℚ) / ((10 : ℚ) ^ fp.length)

/-- Split a character list at the first dot, if any. -/
def splitDot : List Char → List Char × Option (List Char)
  | [] => ([], none)
  | c :: cs =>
    if c = '.' then ([], some cs)
    else
      let p := splitDot cs
      (c :: p.1, p.2)

/-- Value of an unsigned decimal literal (`12`, `12.5`, `.5`, `12.`);
`none` when the list is not of that shape. -/
def unsignedDec : List Char → Option ℚ := fun l =>
  match splitDot l with
  | (ip, none) => if ip ≠ [] ∧ allDigits ip then some (natOfDigits ip) else none
  | (ip, some fp) =>
    if (ip ≠ [] ∨ fp ≠ []) ∧ allDigits ip ∧ allDigits fp then
      some (decOfParts ip fp)
    else none

/-- Value of an optionally signed decimal literal. -/
def signedDec : List Char → Option ℚ
  | '-' :: rest => (unsignedDec rest).map (fun q => -q)
  | '+' :: rest => unsignedDec rest
  | l => unsignedDec l

/-- Model of `Number(string)` on the strings this code base feeds it:
whitespace is trimmed; the empty (or all-whitespace) string converts
to `0`; otherwise the whole remaining string must be a signed decimal
literal, and any other string is NaN, modelled as `none`.
(Hexadecimal, exponent and Infinity forms do not occur in the data
this program sorts and are outside the model.) -/
def jsNumber (s : String) : Option ℚ :=
  let t := trimChars s.data
  if t = [] then some 0 else signedDec t

/-- Longest decimal-digit prefix, and the rest. -/
def takeDigits : List Char → List Char × List Char
  | [] => ([], [])
  | c :: cs =>
    if c.isDigit then
      let p := takeDigits cs
      (c :: p.1, p.2)
    else ([], c :: cs)

/-- Model of `parseFloat`: after skipping leading whitespace, parse an
optional sign and the longest `digits [ . digits ]` prefix; `none`
(NaN) when no digit is found.  Exponent forms are outside the model. -/
def parseFloatCore (l : List Char) : Option ℚ :=
  let sl : ℚ × List Char :=
    match l with
    | '-' :: r => (-1, r)
    | '+' :: r => (1, r)
    | _ => (1, l)
  let ipr := takeDigits sl.2
  let fp : List Char :=
    match ipr.2 with
    | '.' :: r2 => (takeDigits r2).1
    | _ => []
  if ipr.1 = [] ∧ fp = [] then none
  else some (sl.1 * decOfParts ipr.1 fp)

/-- Model of the `parseFloat(s) || 0` idiom pervasive in the source:
NaN (and `0` itself, and `-0`) collapse to `0`. -/
def parseFloatOr0 (s : String) : ℚ :=
  match parseFloatCore (trimL s.data) with
  | none => 0
  | some q => q

/-- Code-point comparison of character lists: negative, zero or
positive. -/
def cmpChars : List Char → List Char → Int
  | [], [] => 0
  | [], _ :: _ => -1
  | _ :: _, [] => 1
  | a :: as, b :: bs =>
    if a.toNat < b.toNat then -1
    else if b.toNat < a.toNat then 1
    else cmpChars as bs

/-- Model of `a.localeCompare(b, "he")`.  On the strings this
development evaluates it on — ASCII digits and lower-case letters —
the ICU Hebrew collation coincides with code-point order (digits
before letters, digits among themselves and lower-case letters among
themselves in code-point order). -/
def localeCompareHe (a b : String) : Int := cmpChars a.data b.data

/-- Sign comparison of rationals, as the sign of the JS subtraction
`a - b` used by the numeric branch of the default comparator. -/
def qcmp (x y : ℚ) : Int := if x < y then -1 else if y < x then 1 else 0

/-- Stable insertion of `x` into an already processed list: `x` goes
before the first element that compares strictly greater, hence after
every earlier element that compares less-or-equal — the placement a
stable sort gives a later-arriving element. -/
def insertJS {α : Type} (cmp : α → α → Int) (x : α) : List α → List α
  | [] => [x]
  | y :: ys => if cmp x y < 0 then x :: y :: ys else y :: insertJS cmp x ys

/-- Model of `Array.prototype.sort(cmp)`: a stable sort (stability is
required by the ECMAScript specification).  For a consistent
comparator this produces the unique stable sorted permutation, which
is what every engine returns; the development only sorts with
consistent comparators. -/
def sortJS {α : Type} (cmp : α → α → Int) (l : List α) : List α :=
  l.foldl (fun acc x => insertJS cmp x acc) []

end JsModel

namespace SortableTable

open JsModel

/-- Sort direction of the table engine (`"asc" | "desc"`; the absent
direction is `Option.none` at use sites). -/
inductive SortDir : Type
  | asc
  | desc
deriving DecidableEq

/-- A table row, as the engine observes it: a total mapping from
column key to the string form of the cell.  This models the idiom
`String(row[key] ?? "")` — a missing key reads as the empty string. -/
def Row : Type := String → String

/-- Column descriptor of the second (superseding) `SortableTable`
component: capability flags, the date-filter marker and the optional
custom comparator.  `sortable` and `filterable` only drive rendering
of the sort button and filter input; `comparator` models
`sortComparator`, receiving the two raw cell values. -/
structure ColumnSpec where
  key : String
  sortable : Bool
  filterable : Bool
  filterTypeDate : Bool
  comparator : Option (String → String → Int)

/-- The filter pass of `sortedAndFilteredData`: for each entry of the
filters object (in insertion order), when the lower-cased trimmed
filter value is non-empty, keep the rows whose lower-cased trimmed
cell contains it.  Note that the column descriptors are not consulted
here. -/
def applyFilters (filters : List (String × String)) (data : List Row) : List Row :=
  filters.foldl
    (fun result kv =>
      let fv := jsTrim (jsLower kv.2)
      if fv ≠ "" then
        result.filter (fun row => jsIncludes (jsTrim (jsLower (row kv.1))) fv)
      else result)
    data

/-- The default cell comparison of `sortedAndFilteredData`: coerce both
cells to text, attempt numeric coercion of both; when both succeed
compare numerically (sign of `aNum - bNum`), otherwise compare with
`localeCompare(_, "he")`. -/
def defaultCompare (aStr bStr : String) : Int :=
  match jsNumber aStr, jsNumber bStr with
  | some x, some y => qcmp x y
  | _, _ => localeCompareHe aStr bStr

/-- The sort pass of `sortedAndFilteredData`: applied only when both a
sort column and a direction are set; uses the custom comparator of the
found column descriptor when present, the default comparison
otherwise; descending negates the computed comparison. -/
def applySort (columns : List ColumnSpec) (sortColumn : Option String)
    (sortDirection : Option SortDir) (result : List Row) : List Row :=
  match sortColumn, sortDirection with
  | some key, some dir =>
    let col := columns.find? (fun c => c.key == key)
    sortJS
      (fun a b =>
        let comparison :=
          match col with
          | some c =>
            match c.comparator with
            | some f => f (a key) (b key)
            | none => defaultCompare (a key) (b key)
          | none => defaultCompare (a key) (b key)
        match dir with
        | SortDir.asc => comparison
        | SortDir.desc => -comparison)
      result
  | _, _ => result

/-- The complete `sortedAndFilteredData` computation of the second
`SortableTable` component: filters first, then the sort. -/
def sortedAndFilteredData (columns : List ColumnSpec)
    (filters : List (String × String)) (sortColumn : Option String)
    (sortDirection : Option SortDir) (data : List Row) : List Row :=
  applySort columns sortColumn sortDirection (applyFilters filters data)

/-- The numeric value of the cell in column `v` of a row, with NaN
defaulted to 0 — the sort key a fully numeric column is ordered by. -/
def jsCellValue (r : Row) : ℚ := (jsNumber (r "v")).getD 0

/-- The sort-related component state: `sortColumn` and
`sortDirection`. -/
structure SortState where
  column : Option String
  direction : Option SortDir
deriving DecidableEq

/-- The `handleSort` click handler: toggling the current sort column
advances asc → desc → cleared; any other column becomes the sort
column, ascending. -/
def handleSort (s : SortState) (columnKey : String) : SortState :=
  if s.column = some columnKey then
    match s.direction with
    | some SortDir.asc => ⟨s.column, some SortDir.desc⟩
    | some SortDir.desc => ⟨none, none⟩
    | none => ⟨s.column, some SortDir.asc⟩
  else ⟨some columnKey, some SortDir.asc⟩

end SortableTable

namespace StockService

open JsModel

/-- Parsed quote payload (`StockPrice` in the source). -/
structure StockPrice where
  price : ℚ
  change : ℚ
  changePercent : ℚ
  symbol : String
deriving DecidableEq

/-- A timestamped cache envelope (`{ data, timestamp }`). -/
structure CacheEntry (α : Type) where
  data : α
  timestamp : Int
deriving DecidableEq

/-- In-memory cache freshness window: 5 minutes, in milliseconds. -/
def CACHE_DURATION : Int := 5 * 60 * 1000

/-- localStorage cache freshness window: 24 hours, in milliseconds. -/
def LOCAL_STORAGE_CACHE_DURATION : Int := 24 * 60 * 60 * 1000

/-- A key-value cache store.  Models both the module-level `Map` and
localStorage; `none` uniformly models an absent or unreadable entry
(`getFromLocalStorage` maps deserialization failure to `null`). -/
def Store (α : Type) : Type := String → Option (CacheEntry α)

/-- Write an entry to a store (`Map.set` / `saveToLocalStorage`). -/
def Store.set {α : Type} (s : Store α) (k : String) (e : CacheEntry α) : Store α :=
  fun k2 => if k2 = k then some e else s k2

/-- The two cache stores the quote fetcher reads and writes. -/
structure FetchState where
  mem : Store StockPrice
  loc : Store StockPrice

/-- Failures thrown inside the `try` block of a fetch:
`RateLimitError`, or any other error (HTTP failure, network
rejection).  All of them are caught by the enclosing `catch`. -/
inductive FetchErr : Type
  | rateLimit
  | other
deriving DecidableEq

/-- The `"Global Quote"` object of a provider response; `none` fields
model absent or falsy values. -/
structure GlobalQuote where
  price05 : Option String
  change09 : String
  changePercent10 : String

/-- A provider response for a current-quote request, after JSON
parsing.  `noteText`/`infoText` are the `Note` and `Information`
fields; `none` models an absent or falsy field. -/
structure QuoteResponse where
  ok : Bool
  noteText : Option String
  infoText : Option String
  globalQuote : Option GlobalQuote

/-- Does a `Note` field signal the rate-limit notice
(`data.Note && data.Note.includes('API call frequency')`)? -/
def noteSignalsRateLimit : Option String → Bool
  | some n => jsIncludes n "API call frequency"
  | none => false

/-- Remove the first `%` character (`replace("%", "")`). -/
def dropFirstPercent : List Char → List Char
  | [] => []
  | c :: cs => if c = '%' then cs else c :: dropFirstPercent cs

/-- Model of `parseFloat` on a provider numeric field.  The guarded
fields are decimal strings, on which `parseFloat` agrees with
`parseFloatOr0`. -/
def parseQ (s : String) : ℚ := parseFloatOr0 s

/-- The `try` block of `fetchStockPrice` after the cache misses:
HTTP failure throws, a rate-notice marker throws `RateLimitError`, a
missing `Global Quote` or missing/falsy `05. price` yields `null`,
otherwise the parsed `StockPrice`. -/
def tryQuote (symbol : String) (resp : QuoteResponse) :
    Except FetchErr (Option StockPrice) :=
  if !resp.ok then Except.error FetchErr.other
  else if noteSignalsRateLimit resp.noteText then Except.error FetchErr.rateLimit
  else if resp.infoText.isSome then Except.error FetchErr.rateLimit
  else
    match resp.globalQuote with
    | none => Except.ok none
    | some q =>
      match q.price05 with
      | none => Except.ok none
      | some p =>
        Except.ok (some
          { price := parseQ p
            change := parseQ q.change09
            changePercent := parseQ ⟨dropFirstPercent q.changePercent10.data⟩
            symbol := symbol })

/-- The network tail of `fetchStockPrice`: run the `try` block; on
success cache the result in both stores with the current timestamp
and return it; a `null` quote caches nothing; the `catch` block
absorbs every thrown error — `RateLimitError` included — and returns
`null`, caching nothing. -/
def fetchQuoteNet (symbol : String) (now : Int) (resp : QuoteResponse)
    (st : FetchState) : Option StockPrice × FetchState :=
  match tryQuote symbol resp with
  | Except.error _ => (none, st)
  | Except.ok none => (none, st)
  | Except.ok (some r) =>
    (some r,
      ⟨st.mem.set symbol ⟨r, now⟩,
       st.loc.set ("stock_price_" ++ symbol) ⟨r, now⟩⟩)

/-- The localStorage tier of `fetchStockPrice`: a persistent entry
younger than 24 hours is returned and back-filled into the in-memory
store unchanged; otherwise the network path runs. -/
def fetchQuoteLocalTier (symbol : String) (now : Int) (resp : QuoteResponse)
    (st : FetchState) : Option StockPrice × FetchState :=
  match st.loc ("stock_price_" ++ symbol) with
  | some lc =>
    if now - lc.timestamp < LOCAL_STORAGE_CACHE_DURATION then
      (some lc.data, ⟨st.mem.set symbol lc, st.loc⟩)
    else fetchQuoteNet symbol now resp st
  | none => fetchQuoteNet symbol now resp st

/-- The complete `fetchStockPrice`, with the clock, the provider
response and the two cache stores passed explicitly: in-memory tier
(5 minutes), then localStorage tier (24 hours, with back-fill), then
the network.  The returned `Option` is the promise value seen by the
caller; the function never rejects — the internal `catch` collapses
every failure to `null`. -/
def fetchStockPrice (symbol : String) (now : Int) (resp : QuoteResponse)
    (st : FetchState) : Option StockPrice × FetchState :=
  match st.mem symbol with
  | some cached =>
    if now - cached.timestamp < CACHE_DURATION then (some cached.data, st)
    else fetchQuoteLocalTier symbol now resp st
  | none => fetchQuoteLocalTier symbol now resp st

/-- One normalized historical point (`HistoricalDataPoint`). -/
structure HistoricalDataPoint where
  date : String
  close : ℚ
  volume : ℚ
deriving DecidableEq

/-- One raw daily entry of the `"Time Series (Daily)"` object, in the
order `Object.entries` yields them. -/
structure DailyEntry where
  date : String
  close4 : String
  volume5 : String

/-- A provider response for a daily-history request. -/
structure HistoryResponse where
  ok : Bool
  noteText : Option String
  infoText : Option String
  timeSeries : Option (List DailyEntry)

/-- Split a character list on `-` separators. -/
def splitDash : List Char → List (List Char)
  | [] => [[]]
  | c :: cs =>
    let r := splitDash cs
    if c = '-' then [] :: r
    else
      match r with
      | [] => [[c]]
      | h :: t => (c :: h) :: t

end StockService

namespace JsModel

/-- Model of `new Date(year, monthIndex, day).getTime()` as the order-
and field-preserving code `(year*12 + monthIndex)*31 + (day - 1)`.
The program only ever (a) compares these values, (b) tests them
against `0` (falsiness), and (c) re-extracts the year and month; the
code preserves all three observations for the dates this program
constructs (valid calendar days 1–31, with month overflow normalized
exactly as `Date` normalizes it, since the code is linear in
`year*12 + monthIndex`). -/
def jsDateTime (y m d : Int) : Int := (y * 12 + m) * 31 + (d - 1)

/-- Month index `year*12 + monthIndex` recovered from a date code;
models the composition `getFullYear`/`getMonth` applied to
`new Date(ts)` for first-of-month and in-month timestamps. -/
def monthIdxOf (ts : Int) : Int := ts.fdiv 31

/-- The date code of the first day of the month with index `idx`
(`new Date(year, month, 1).getTime()`). -/
def monthStartTime (idx : Int) : Int := idx * 31

/-- Gregorian date of a day count from 1970-01-01 (the standard civil
from-days algorithm); the result month is 1-based. -/
def civilFromDays (z0 : Int) : Int × Int × Int :=
  let z := z0 + 719468
  let era := z.fdiv 146097
  let doe := z - era * 146097
  let yoe := (doe - doe.fdiv 1460 + doe.fdiv 36524 - doe.fdiv 146096).fdiv 365
  let y := yoe + era * 400
  let doy := doe - (365 * yoe + yoe.fdiv 4 - yoe.fdiv 100)
  let mp := (5 * doy + 2).fdiv 153
  let d := doy - (153 * mp + 2).fdiv 5 + 1
  let m := mp + (if mp < 10 then 3 else -9)
  ((if m ≤ 2 then y + 1 else y), m, d)

/-- Model of `XLSX.SSF.parse_date_code` on the day-serial strings the
date parser feeds it: the integer part of an Excel serial converts to
a calendar date (Excel epoch conventions, including the historical
serial-60 leap-bug cell); out-of-range serials yield `none`, which
the callers treat as an unparseable date.  The serial-0 corner where
SSF reports day 0 of January 1900 produces the same `Date` code as
our 1899-12-31, because the date code normalizes day 0 exactly as
`Date` does. -/
def parseDateCode (n : ℚ) : Option (Int × Int × Int) :=
  let s : Int := ⌊n⌋
  if s < 0 ∨ 2958465 < s then none
  else if s = 60 then some (1900, 2, 29)
  else if s ≤ 59 then some (civilFromDays (s - 25568))
  else some (civilFromDays (s - 25569))

end JsModel

namespace StockService

open JsModel

/-- Model of `new Date(isoDate).getTime()` on the `YYYY-MM-DD` keys of
the daily time series, used only for ordering: parse the three dash-
separated components into the date code; an unrecognized shape maps
to `0` (order-faithfully modelling NaN, which never arises on
provider data). -/
def isoDateTime (s : String) : Int :=
  match splitDash (trimChars s.data) with
  | [y, m, d] =>
    if y ≠ [] ∧ m ≠ [] ∧ d ≠ [] ∧ allDigits y ∧ allDigits m ∧ allDigits d then
      jsDateTime (natOfDigits y) ((natOfDigits m : Int) - 1) (natOfDigits d)
    else 0
  | _ => 0

/-- The `try` block of `fetchHistoricalData`: failure classification
as for quotes; a missing `"Time Series (Daily)"` yields the empty
series (uncached); otherwise the entries are normalized, sorted by
calendar date ascending and truncated to the most recent 90 points. -/
def tryHistory (resp : HistoryResponse) :
    Except FetchErr (Option (List HistoricalDataPoint)) :=
  if !resp.ok then Except.error FetchErr.other
  else if noteSignalsRateLimit resp.noteText then Except.error FetchErr.rateLimit
  else if resp.infoText.isSome then Except.error FetchErr.rateLimit
  else
    match resp.timeSeries with
    | none => Except.ok none
    | some entries =>
      let pts := entries.map (fun e =>
        HistoricalDataPoint.mk e.date (parseQ e.close4) (parseQ e.volume5))
      let sorted := sortJS (fun a b => isoDateTime a.date - isoDateTime b.date) pts
      Except.ok (some (sorted.drop (sorted.length - 90)))

/-- The two cache stores of the historical-data fetcher. -/
structure HistState where
  mem : Store (List HistoricalDataPoint)
  loc : Store (List HistoricalDataPoint)

/-- The network tail of `fetchHistoricalData`: the `try` block result;
a successfully normalized series is cached in both stores and
returned; a missing time series returns `[]` without caching; the
`catch` block absorbs every thrown error — `RateLimitError` included —
and returns `[]`, caching nothing. -/
def fetchHistoryNet (symbol : String) (now : Int) (resp : HistoryResponse)
    (st : HistState) : List HistoricalDataPoint × HistState :=
  match tryHistory resp with
  | Except.error _ => ([], st)
  | Except.ok none => ([], st)
  | Except.ok (some pts) =>
    (pts,
      ⟨st.mem.set symbol ⟨pts, now⟩,
       st.loc.set ("stock_history_" ++ symbol) ⟨pts, now⟩⟩)

/-- The localStorage tier of `fetchHistoricalData`. -/
def fetchHistoryLocalTier (symbol : String) (now : Int) (resp : HistoryResponse)
    (st : HistState) : List HistoricalDataPoint × HistState :=
  match st.loc ("stock_history_" ++ symbol) with
  | some lc =>
    if now - lc.timestamp < LOCAL_STORAGE_CACHE_DURATION then
      (lc.data, ⟨st.mem.set symbol lc, st.loc⟩)
    else fetchHistoryNet symbol now resp st
  | none => fetchHistoryNet symbol now resp st

/-- The complete `fetchHistoricalData`, cache tiers as for
`fetchStockPrice`; the caller always receives a list — the function
never rejects. -/
def fetchHistoricalData (symbol : String) (now : Int) (resp : HistoryResponse)
    (st : HistState) : List HistoricalDataPoint × HistState :=
  match st.mem symbol with
  | some cached =>
    if now - cached.timestamp < CACHE_DURATION then (cached.data, st)
    else fetchHistoryLocalTier symbol now resp st
  | none => fetchHistoryLocalTier symbol now resp st

/-- One step of the batch loop of `fetchMultipleStockPrices`: a group
of up to five symbols whose fetches are started together and awaited
together, or the fixed 60-second inter-group pause. -/
inductive BatchEvent : Type
  | group (syms : List String)
  | delay
deriving DecidableEq

/-- The loop of `fetchMultipleStockPrices`
(`for i = 0; i < symbols.length; i += 5`), written with the list
length as structural fuel: each iteration takes the next slice of
five, and pauses afterwards exactly when symbols remain
(`i + batchSize < symbols.length`).  The fuel never runs out, since
every iteration consumes five symbols and one unit of fuel. -/
def batchLoop : Nat → List String → List BatchEvent
  | 0, _ => []
  | _, [] => []
  | fuel + 1, l =>
    BatchEvent.group (l.take 5) ::
      (if l.drop 5 = [] then [] else BatchEvent.delay :: batchLoop fuel (l.drop 5))

/-- The event trace of `fetchMultipleStockPrices` over a symbol
list. -/
def batchSchedule (symbols : List String) : List BatchEvent :=
  batchLoop symbols.length symbols

/-- Recognize the delay events of a trace. -/
def isDelay : BatchEvent → Bool
  | BatchEvent.delay => true
  | BatchEvent.group _ => false

/-- Modelled from the spec: partition the identifier list into
consecutive groups of five, the last group possibly smaller — the
reference grouping the schedule is compared against. -/
def chunks5 : Nat → List String → List (List String)
  | 0, _ => []
  | _, [] => []
  | fuel + 1, l => l.take 5 :: chunks5 fuel (l.drop 5)

/-- The reference grouping at the standard fuel. -/
def specGroups (l : List String) : List (List String) := chunks5 l.length l

/-- The key-value contents of the results map built by
`fetchMultipleStockPrices`: every symbol is looked up by its own
fetch, modelled by the oracle `f` (which absorbs cache state and the
per-symbol provider responses); a symbol whose fetch yields `null`
is simply omitted and affects no other entry.  Insertion order of the
JS `Map` depends on promise-settlement timing; the mapping itself
does not. -/
def batchResults (f : String → Option StockPrice) (symbols : List String) :
    String → Option StockPrice :=
  fun s => if s ∈ symbols then f s else none

end StockService

namespace Ledger

open JsModel

/-- One spreadsheet row as the aggregator consumes it.  Field names
map the fixed Hebrew column headers: `date` = "תאריך", `actionType` =
"סוג פעולה", `securityName` = "שם נייר", `securityId` =
"מס' נייר / סימבול", `quantity` = "כמות", `execPrice` = "שער ביצוע",
`fee` = "עמלת פעולה", `localAmount` = "תמורה בשקלים".  Every value is
a string; a missing cell is the empty string (the sheet reader
defaults absent cells to `""`). -/
structure LedgerRow where
  date : String
  actionType : String
  securityName : String
  securityId : String
  quantity : String
  execPrice : String
  fee : String
  localAmount : String
deriving DecidableEq

/-- The recognized buy action tag. -/
def ACTION_BUY : String := "קניה חול מטח"

/-- The recognized sell action tag. -/
def ACTION_SELL : String := "מכירה חול מטח"

/-- The recognized benefit-credit action tag. -/
def ACTION_BENEFIT : String := "הטבה"

/-- The recognized dividend-deposit action tag. -/
def ACTION_DIVIDEND : String := "הפקדה דיבידנד מטח"

/-- The recognized tax-withdrawal action tag. -/
def ACTION_TAX : String := "משיכת מס חול מטח"

/-- The recognized cash-transfer action tag. -/
def ACTION_CASH : String := "העברה מזומן בשח"

/-- The date separators accepted by the date regexes: `/`, `.`, `-`. -/
def isSep (c : Char) : Bool := c = '/' || c = '.' || c = '-'

/-- Does the trimmed text match the serial-number date shape
`/^\d+(\.\d+)?$/`? -/
def numericDateShape (t : List Char) : Bool :=
  match splitDot t with
  | (ip, none) => ip ≠ [] && allDigits ip
  | (ip, some fp) => ip ≠ [] && fp ≠ [] && allDigits ip && allDigits fp

/-- Match `/^(\d{1,2})[\/.\-](\d{1,2})[\/.\-](\d{4})$/`, returning the
three matched digit runs (day, month, year) as text. -/
def dmyMatch (t : List Char) : Option (List Char × List Char × List Char) :=
  let p1 := takeDigits t
  if p1.1.length < 1 ∨ 2 < p1.1.length then none
  else
    match p1.2 with
    | [] => none
    | c1 :: r1 =>
      if !isSep c1 then none
      else
        let p2 := takeDigits r1
        if p2.1.length < 1 ∨ 2 < p2.1.length then none
        else
          match p2.2 with
          | [] => none
          | c2 :: r2 =>
            if !isSep c2 then none
            else
              let p3 := takeDigits r2
              if p3.1.length = 4 ∧ p3.2 = [] then some (p1.1, p2.1, p3.1)
              else none

/-- Match `/^(\d{4})[\/.\-](\d{1,2})[\/.\-](\d{1,2})$/`, returning the
three matched digit runs (year, month, day) as text. -/
def ymdMatch (t : List Char) : Option (List Char × List Char × List Char) :=
  let p1 := takeDigits t
  if p1.1.length ≠ 4 then none
  else
    match p1.2 with
    | [] => none
    | c1 :: r1 =>
      if !isSep c1 then none
      else
        let p2 := takeDigits r1
        if p2.1.length < 1 ∨ 2 < p2.1.length then none
        else
          match p2.2 with
          | [] => none
          | c2 :: r2 =>
            if !isSep c2 then none
            else
              let p3 := takeDigits r2
              if (p3.1.length = 1 ∨ p3.1.length = 2) ∧ p3.2 = [] then
                some (p1.1, p2.1, p3.1)
              else none

/-- The shared `parseDateToTimestamp`: Excel serial numbers, then
`D/M/YYYY`, then `YYYY/M/D` (separators `/`, `.`, `-`); empty or
unparseable input yields the sentinel `0` and never an error. -/
def parseDateToTimestamp (value : String) : Int :=
  let t := trimChars value.data
  if t = [] then 0
  else if numericDateShape t then
    match parseDateCode ((unsignedDec t).getD 0) with
    | some ymd => jsDateTime ymd.1 (ymd.2.1 - 1) ymd.2.2
    | none => 0
  else
    match dmyMatch t with
    | some dmy =>
      jsDateTime (natOfDigits dmy.2.2) ((natOfDigits dmy.2.1 : Int) - 1)
        (natOfDigits dmy.1)
    | none =>
      match ymdMatch t with
      | some ymd =>
        jsDateTime (natOfDigits ymd.1) ((natOfDigits ymd.2.1 : Int) - 1)
          (natOfDigits ymd.2.2)
      | none => 0

/-- Left-pad a character list to length two with `0`
(`padStart(2, "0")`). -/
def padStart2 (l : List Char) : List Char :=
  if 2 ≤ l.length then l
  else if l.length = 1 then '0' :: l
  else ['0', '0']

/-- Render an integer and left-pad to two characters
(`String(n).padStart(2, "0")`). -/
def pad2Str (n : Int) : String := ⟨padStart2 (toString n).data⟩

/-- The shared `formatDateLabel`: a recognized date renders as
`DD/MM/YYYY` (the regex branches pad the matched text, the serial
branch pads the computed fields); the empty string stays empty; an
unrecognized non-empty value renders as its trimmed raw text. -/
def formatDateLabel (value : String) : String :=
  let t := trimChars value.data
  if t = [] then ""
  else if numericDateShape t then
    match parseDateCode ((unsignedDec t).getD 0) with
    | some ymd => pad2Str ymd.2.2 ++ "/" ++ pad2Str ymd.2.1 ++ "/" ++ toString ymd.1
    | none => ⟨t⟩
  else
    match dmyMatch t with
    | some dmy =>
      (⟨padStart2 dmy.1⟩ : String) ++ "/" ++ ⟨padStart2 dmy.2.1⟩ ++ "/" ++ ⟨dmy.2.2⟩
    | none =>
      match ymdMatch t with
      | some ymd =>
        (⟨padStart2 ymd.2.2⟩ : String) ++ "/" ++ ⟨padStart2 ymd.2.1⟩ ++ "/" ++ ⟨ymd.1⟩
      | none => ⟨t⟩

/-- One row of the per-security transaction history before the
cumulative column is attached. -/
structure TxRow where
  timestamp : Int
  dateLabel : String
  actionLabel : String
  quantity : ℚ
  delta : ℚ
  price : ℚ
  fee : ℚ
deriving DecidableEq

/-- The per-row classification step of `transactionRows`: keep a row
iff its trimmed identifier equals the target ticker exactly and its
trimmed action tag is buy, sell or benefit; signed `delta` adds the
raw quantity for buy/benefit and subtracts it for sell. -/
def txRowOf (ticker : String) (row : LedgerRow) : Option TxRow :=
  let tickerValue := jsTrim row.securityId
  let actionType := jsTrim row.actionType
  let dateValue := jsTrim row.date
  let quantityValue := parseFloatOr0 (jsTrim row.quantity)
  let priceValue := parseFloatOr0 (jsTrim row.execPrice)
  let feeValue := parseFloatOr0 (jsTrim row.fee)
  let isBuy := actionType = ACTION_BUY
  let isSell := actionType = ACTION_SELL
  let isBenefit := actionType = ACTION_BENEFIT
  if tickerValue ≠ ticker ∨ (¬isBuy ∧ ¬isSell ∧ ¬isBenefit) then none
  else
    some
      { timestamp := parseDateToTimestamp dateValue
        dateLabel := formatDateLabel dateValue
        actionLabel :=
          if isBenefit then "הטבה" else if isBuy then "קנייה" else "מכירה"
        quantity := |quantityValue|
        delta := if isBenefit ∨ isBuy then quantityValue else -quantityValue
        price := priceValue
        fee := |feeValue| }

/-- A transaction-history row with its cumulative column. -/
structure TxRowC extends TxRow where
  cumulative : ℚ
deriving DecidableEq

/-- Attach the running cumulative quantity in list order. -/
def withCumulative : ℚ → List TxRow → List TxRowC
  | _, [] => []
  | c, r :: rs =>
    let c2 := c + r.delta
    ⟨r, c2⟩ :: withCumulative c2 rs

/-- The `transactionRows` view of the stock-detail screen: classify
and filter, sort by parsed timestamp ascending, then attach the
running cumulative signed quantity. -/
def transactionRows (ticker : String) (rows : List LedgerRow) : List TxRowC :=
  let filtered := rows.filterMap (txRowOf ticker)
  let sorted := sortJS (fun a b => a.timestamp - b.timestamp) filtered
  withCumulative 0 sorted

/-- One dividend/tax group of the stock-detail dividend view. -/
structure DivGroup where
  timestamp : Int
  dateLabel : String
  dividend : ℚ
  tax : ℚ
deriving DecidableEq

/-- Add an amount to the dividend or tax column of a group. -/
def addToGroup (g : DivGroup) (isDiv : Bool) (amt : ℚ) : DivGroup :=
  if isDiv then { g with dividend := g.dividend + amt }
  else { g with tax := g.tax + amt }

/-- Update the group of a date label in the `byDate` map (a JS `Map`
keyed by label, insertion-ordered): an existing group keeps its
position and first-seen timestamp; a new label appends a fresh
group carrying the current timestamp. -/
def insertDiv : List DivGroup → String → Int → Bool → ℚ → List DivGroup
  | [], label, ts, isDiv, amt => [addToGroup ⟨ts, label, 0, 0⟩ isDiv amt]
  | g :: gs, label, ts, isDiv, amt =>
    if g.dateLabel = label then addToGroup g isDiv amt :: gs
    else g :: insertDiv gs label ts isDiv amt

/-- A dividend group with its net column. -/
structure DivGroupN extends DivGroup where
  net : ℚ
deriving DecidableEq

/-- One row step of the `dividendRows` fold: rows whose security name
contains the ticker as a substring and whose action is
dividend-deposit or tax-withdrawal join the group of their formatted
date label; sentinel-dated, unlabelled and zero-amount rows are
skipped. -/
def divRowStep (ticker : String) (byDate : List DivGroup) (row : LedgerRow) :
    List DivGroup :=
  let actionType := jsTrim row.actionType
  let stockName := jsTrim row.securityName
  if ¬(jsIncludes stockName ticker) then byDate
  else
    let isDiv := actionType = ACTION_DIVIDEND
    let isTax := actionType = ACTION_TAX
    if ¬isDiv ∧ ¬isTax then byDate
    else
      let dateValue := jsTrim row.date
      let ts := parseDateToTimestamp dateValue
      let label := formatDateLabel dateValue
      let amt := |parseFloatOr0 (jsTrim row.quantity)|
      if ts = 0 ∨ label = "" ∨ amt = 0 then byDate
      else insertDiv byDate label ts isDiv amt

/-- The `dividendRows` view: fold the rows through `divRowStep`, sort
the groups by first-seen timestamp, and attach `net = dividend -
tax`. -/
def dividendRows (ticker : String) (rows : List LedgerRow) : List DivGroupN :=
  (sortJS (fun a b => a.timestamp - b.timestamp)
      (rows.foldl (divRowStep ticker) [])).map
    (fun g => ⟨g, g.dividend - g.tax⟩)

/-- The per-security rollup accumulated by `stocksTableData`. -/
structure StockRollup where
  quantity : ℚ
  totalFees : ℚ
  totalDividends : ℚ
  totalTaxes : ℚ
deriving DecidableEq

/-- The rollup fold of `stocksTableData` for one symbol: quantity adds
buy/benefit amounts and subtracts sell amounts on exact identifier
match; fees accumulate absolutely on identifier match; dividends and
taxes accumulate absolutely on substring name match. -/
def stockRollup (symbol : String) (rows : List LedgerRow) : StockRollup :=
  rows.foldl
    (fun acc row =>
      let ticker := jsTrim row.securityId
      let actionType := jsTrim row.actionType
      let stockName := jsTrim row.securityName
      let acc1 :=
        if ticker = symbol then
          let amount := parseFloatOr0 (jsTrim row.quantity)
          let fee := parseFloatOr0 (jsTrim row.fee)
          let acc0 :=
            if actionType = ACTION_BUY ∨ actionType = ACTION_BENEFIT then
              { acc with quantity := acc.quantity + amount }
            else if actionType = ACTION_SELL then
              { acc with quantity := acc.quantity - amount }
            else acc
          { acc0 with totalFees := acc0.totalFees + |fee| }
        else acc
      let acc2 :=
        if actionType = ACTION_DIVIDEND ∧ jsIncludes stockName symbol then
          { acc1 with
              totalDividends := acc1.totalDividends + |parseFloatOr0 (jsTrim row.quantity)| }
        else acc1
      if actionType = ACTION_TAX ∧ jsIncludes stockName symbol then
        { acc2 with
            totalTaxes := acc2.totalTaxes + |parseFloatOr0 (jsTrim row.quantity)| }
      else acc2)
    ⟨0, 0, 0, 0⟩

/-- One collected deposit of `depositsByMonth`. -/
structure Deposit where
  dateLabel : String
  timestamp : Int
  amount : ℚ
deriving DecidableEq

/-- The deposit-collection step of `depositsByMonth`: rows whose
trimmed identifier is the cash pseudo-identifier `900`; rows with an
empty label, sentinel timestamp or zero amount are skipped; the
amount is the absolute ILS amount. -/
def depositOf (row : LedgerRow) : Option Deposit :=
  let ticker := jsTrim row.securityId
  if ticker ≠ "900" then none
  else
    let dateValue := jsTrim row.date
    let dateLabel := formatDateLabel dateValue
    let ts := parseDateToTimestamp dateValue
    let amount := |parseFloatOr0 (jsTrim row.localAmount)|
    if dateLabel = "" ∨ ts = 0 ∨ amount = 0 then none
    else some ⟨dateLabel, ts, amount⟩

/-- The month label `MM/YYYY` of a month index. -/
def monthLabelOf (idx : Int) : String :=
  pad2Str (idx.emod 12 + 1) ++ "/" ++ toString (idx.fdiv 12)

/-- One month bucket of the deposits-by-month series.  The source
keys its `Map` by the string `` `${year}-${month}` ``, which is in
bijection with the `(year, month)` pair; the embedding keys by the
month index `year*12 + monthIndex` directly. -/
structure MonthEntry where
  monthKey : Int
  monthLabel : String
  timestamp : Int
  amount : ℚ
  details : List (String × ℚ)
deriving DecidableEq

/-- The consecutive month indices from `startIdx` to `endIdx`
inclusive (the cursor loop over first-of-month dates). -/
def monthRange (startIdx endIdx : Int) : List Int :=
  (List.range (endIdx + 1 - startIdx).toNat).map (fun i : Nat => startIdx + (i : Int))

/-- A fresh, empty month bucket. -/
def initMonth (idx : Int) : MonthEntry :=
  ⟨idx, monthLabelOf idx, monthStartTime idx, 0, []⟩

/-- Route one deposit to the bucket of its month: the first (unique)
bucket with the matching key accumulates the amount and appends the
`(dateLabel, amount)` detail pair; a deposit with no bucket is
dropped. -/
def addDepositTo : List MonthEntry → Deposit → List MonthEntry
  | [], _ => []
  | e :: es, d =>
    if e.monthKey = monthIdxOf d.timestamp then
      { e with
          amount := e.amount + d.amount
          details := e.details ++ [(d.dateLabel, d.amount)] } :: es
    else e :: addDepositTo es d

/-- The `depositsByMonth` view: collect and sort the deposits, build
one empty bucket per month from the earliest to the latest deposit
month, route every deposit to its bucket, and sort the buckets by
timestamp. -/
def depositsByMonth (rows : List LedgerRow) : List MonthEntry :=
  let deposits := rows.filterMap depositOf
  if deposits = [] then []
  else
    let sorted := sortJS (fun a b => a.timestamp - b.timestamp) deposits
    match sorted with
    | [] => []
    | first :: rest =>
      let lastD := rest.getLastD first
      let startIdx := monthIdxOf first.timestamp
      let endIdx := monthIdxOf lastD.timestamp
      let months := (monthRange startIdx endIdx).map initMonth
      let filled := (first :: rest).foldl addDepositTo months
      sortJS (fun a b => a.timestamp - b.timestamp) filled

end Ledger

namespace Fixtures

open JsModel SortableTable StockService Ledger

/-- A quote response carrying the provider rate-notice marker in its
`Note` field (HTTP success, as the provider sends it). -/
def rlQuoteResp : QuoteResponse :=
  ⟨true,
   some "Thank you for using Alpha Vantage! Our standard API call frequency is 5 calls per minute and 500 calls per day.",
   none, none⟩

/-- A quote response carrying a truthy `Information` field. -/
def infoQuoteResp : QuoteResponse :=
  ⟨true, none, some "rate limit exceeded", none⟩

/-- A malformed/empty quote response: HTTP success, no rate marker,
no `Global Quote` object. -/
def emptyQuoteResp : QuoteResponse := ⟨true, none, none, none⟩

/-- A successful quote response. -/
def goodQuoteResp : QuoteResponse :=
  ⟨true, none, none, some ⟨some "190.5", "1.5", "0.79%"⟩⟩

/-- Cold caches for the quote fetcher. -/
def st0 : FetchState := ⟨fun _ => none, fun _ => none⟩

/-- A rate-noticed history response. -/
def rlHistResp : HistoryResponse :=
  ⟨true,
   some "Thank you for using Alpha Vantage! Our standard API call frequency is 5 calls per minute and 500 calls per day.",
   none, none⟩

/-- A malformed/empty history response. -/
def emptyHistResp : HistoryResponse := ⟨true, none, none, none⟩

/-- Cold caches for the history fetcher. -/
def hst0 : HistState := ⟨fun _ => none, fun _ => none⟩

/-- A concrete parsed quote used by the cache-tier witnesses. -/
def pAAPL : StockPrice := ⟨189, 1, 1 / 2, "AAPL"⟩

/-- A state whose in-memory store holds a quote captured at time 0. -/
def stMem : FetchState :=
  ⟨fun k => if k = "AAPL" then some ⟨pAAPL, 0⟩ else none, fun _ => none⟩

/-- A state whose localStorage store holds a quote captured at
time 0. -/
def stLoc : FetchState :=
  ⟨fun _ => none,
   fun k => if k = "stock_price_AAPL" then some ⟨pAAPL, 0⟩ else none⟩

/-- A column marked neither sortable nor filterable. -/
def colA : ColumnSpec := ⟨"a", false, false, false, none⟩

/-- A row whose cell in column `a` is `x`. -/
def rowX : Row := fun k => if k = "a" then "x" else ""

/-- A row whose cell in column `a` is `y`. -/
def rowY : Row := fun k => if k = "a" then "y" else ""

/-- A single-cell row: every column reads the given value. -/
def rowOf (s : String) : Row := fun _ => s

/-- A plain sortable column with no custom comparator. -/
def colV : ColumnSpec := ⟨"v", true, true, false, none⟩

/-- Concrete ledger rows: buy 10, sell 3, benefit 1 of AAPL, in
chronological order. -/
def exBuy : LedgerRow :=
  ⟨"01/01/2024", "קניה חול מטח", "Apple Inc AAPL", "AAPL", "10", "150", "2", ""⟩

/-- The sell row of the concrete transaction example. -/
def exSell : LedgerRow :=
  ⟨"02/01/2024", "מכירה חול מטח", "Apple Inc AAPL", "AAPL", "3", "160", "2", ""⟩

/-- The benefit row of the concrete transaction example. -/
def exBen : LedgerRow :=
  ⟨"03/01/2024", "הטבה", "Apple Inc AAPL", "AAPL", "1", "", "", ""⟩

/-- The concrete transaction-example row set. -/
def exRows : List LedgerRow := [exBuy, exSell, exBen]

/-- A January deposit row (cash pseudo-identifier 900). -/
def depJan : LedgerRow :=
  ⟨"15/01/2024", "העברה מזומן בשח", "", "900", "", "", "", "1000"⟩

/-- An April deposit row of the same year. -/
def depApr : LedgerRow :=
  ⟨"10/04/2024", "העברה מזומן בשח", "", "900", "", "", "", "2500"⟩

/-- A deposit row with an empty date cell. -/
def depNoDate : LedgerRow :=
  ⟨"", "העברה מזומן בשח", "", "900", "", "", "", "1000"⟩

/-- A dividend row with an unparseable date cell. -/
def divNoDate : LedgerRow :=
  ⟨"xyz", "הפקדה דיבידנד מטח", "Apple AAPL", "", "7", "", "", ""⟩

/-- A buy row with an empty date cell. -/
def buyNoDate : LedgerRow :=
  ⟨"", "קניה חול מטח", "Apple Inc AAPL", "AAPL", "5", "150", "2", ""⟩

/-- Twelve identifiers, for the batch-grouping example. -/
def syms12 : List String :=
  ["s01", "s02", "s03", "s04", "s05", "s06", "s07", "s08", "s09", "s10", "s11", "s12"]

end Fixtures

section SortLemmas

open JsModel

variable {α : Type} {K : Type} [LinearOrder K]

/-- Inserting with `insertJS` permutes the element onto the list. -/
lemma insertJS_perm (cmp : α → α → Int) (x : α) (l : List α) :
    (insertJS cmp x l).Perm (x :: l) := by
  induction l with
  | nil => simp [insertJS]
  | cons y ys ih =>
    simp only [insertJS]
    split
    · exact List.Perm.refl _
    · exact (ih.cons y).trans (List.Perm.swap x y ys)

/-- The insertion fold permutes the input onto the accumulator. -/
lemma foldl_insertJS_perm (cmp : α → α → Int) :
    ∀ (l acc : List α),
      (l.foldl (fun a x => insertJS cmp x a) acc).Perm (l ++ acc) := by
  intro l
  induction l with
  | nil => intro acc; simp
  | cons x xs ih =>
    intro acc
    simp only [List.foldl_cons, List.cons_append]
    exact ((ih _).trans ((insertJS_perm cmp x acc).append_left xs)).trans
      List.perm_middle

/-- The sort model permutes its input. -/
lemma sortJS_perm (cmp : α → α → Int) (l : List α) : (sortJS cmp l).Perm l := by
  simpa using foldl_insertJS_perm cmp l []

/-- Membership is preserved by the sort model. -/
lemma mem_sortJS (cmp : α → α → Int) {a : α} {l : List α} :
    a ∈ sortJS cmp l ↔ a ∈ l :=
  (sortJS_perm cmp l).mem_iff

/-- Insertion preserves sortedness for a comparator that decides a
key order. -/
lemma insertJS_sorted (cmp : α → α → Int) (key : α → K)
    (hcmp : ∀ a b, cmp a b < 0 ↔ key a < key b) (x : α) {l : List α}
    (hl : l.Pairwise (fun a b => key a ≤ key b)) :
    (insertJS cmp x l).Pairwise (fun a b => key a ≤ key b) := by
  induction l with
  | nil => simp [insertJS]
  | cons y ys ih =>
    rcases List.pairwise_cons.mp hl with ⟨hy, hys⟩
    simp only [insertJS]
    split
    case isTrue h =>
      have hxy : key x < key y := (hcmp x y).mp h
      refine List.pairwise_cons.mpr ⟨?_, hl⟩
      intro b hb
      rcases List.mem_cons.mp hb with rfl | hb
      · exact hxy.le
      · exact hxy.le.trans (hy b hb)
    case isFalse h =>
      have hyx : key y ≤ key x :=
        le_of_not_lt (fun hlt => h ((hcmp x y).mpr hlt))
      refine List.pairwise_cons.mpr ⟨?_, ih hys⟩
      intro b hb
      have hb2 : b ∈ x :: ys := (insertJS_perm cmp x ys).mem_iff.mp hb
      rcases List.mem_cons.mp hb2 with rfl | hb3
      · exact hyx
      · exact hy b hb3

/-- The sort model sorts, for a comparator that decides a key
order. -/
lemma sortJS_sorted (cmp : α → α → Int) (key : α → K)
    (hcmp : ∀ a b, cmp a b < 0 ↔ key a < key b) (l : List α) :
    (sortJS cmp l).Pairwise (fun a b => key a ≤ key b) := by
  suffices haux : ∀ (rem acc : List α),
      acc.Pairwise (fun a b => key a ≤ key b) →
      (rem.foldl (fun a x => insertJS cmp x a) acc).Pairwise
        (fun a b => key a ≤ key b) by
    exact haux l [] (by simp)
  intro rem
  induction rem with
  | nil => intro acc h; simpa using h
  | cons x xs ih =>
    intro acc h
    exact ih _ (insertJS_sorted cmp key hcmp x h)

/-- Insertion only consults the comparator against list members. -/
lemma insertJS_congr {cmp cmp2 : α → α → Int} (x : α) {acc : List α}
    (h : ∀ y ∈ acc, cmp x y = cmp2 x y) :
    insertJS cmp x acc = insertJS cmp2 x acc := by
  induction acc with
  | nil => rfl
  | cons y ys ih =>
    have hxy := h y (List.mem_cons_self y ys)
    simp only [insertJS, hxy]
    split
    · rfl
    · rw [ih (fun z hz => h z (List.mem_cons_of_mem y hz))]

/-- The sort model only consults the comparator on pairs drawn from
the input list. -/
lemma sortJS_congr {cmp cmp2 : α → α → Int} {l : List α}
    (h : ∀ x ∈ l, ∀ y ∈ l, cmp x y = cmp2 x y) :
    sortJS cmp l = sortJS cmp2 l := by
  suffices haux : ∀ (rem acc : List α), (∀ x ∈ rem, x ∈ l) → (∀ x ∈ acc, x ∈ l) →
      rem.foldl (fun a x => insertJS cmp x a) acc
        = rem.foldl (fun a x => insertJS cmp2 x a) acc by
    exact haux l [] (fun x hx => hx) (by simp)
  intro rem
  induction rem with
  | nil => intro acc _ _; rfl
  | cons x xs ih =>
    intro acc hrem hacc
    have hxl : x ∈ l := hrem x (List.mem_cons_self x xs)
    simp only [List.foldl_cons]
    rw [insertJS_congr x (fun y hy => h x hxl y (hacc y hy))]
    refine ih _ (fun z hz => hrem z (List.mem_cons_of_mem x hz)) ?_
    intro z hz
    have hz2 : z ∈ x :: acc := (insertJS_perm cmp2 x acc).mem_iff.mp hz
    rcases List.mem_cons.mp hz2 with rfl | hz3
    · exact hxl
    · exact hacc z hz3

/-- An element no smaller than every accumulator member is appended at
the end. -/
lemma insertJS_of_forall_ge {cmp : α → α → Int} (x : α) {acc : List α}
    (h : ∀ y ∈ acc, ¬cmp x y < 0) :
    insertJS cmp x acc = acc ++ [x] := by
  induction acc with
  | nil => rfl
  | cons y ys ih =>
    simp only [insertJS, if_neg (h y (List.mem_cons_self y ys))]
    rw [ih (fun z hz => h z (List.mem_cons_of_mem y hz))]
    rfl

/-- The sort model is the identity on an already sorted list. -/
lemma sortJS_of_sorted (cmp : α → α → Int) (key : α → K)
    (hcmp : ∀ a b, cmp a b < 0 ↔ key a < key b) {l : List α}
    (hl : l.Pairwise (fun a b => key a ≤ key b)) :
    sortJS cmp l = l := by
  suffices haux : ∀ (rem acc : List α),
      (acc ++ rem).Pairwise (fun a b => key a ≤ key b) →
      rem.foldl (fun a x => insertJS cmp x a) acc = acc ++ rem by
    simpa using haux l [] (by simpa using hl)
  intro rem
  induction rem with
  | nil => intro acc _; simp
  | cons x xs ih =>
    intro acc h
    have hx : ∀ y ∈ acc, key y ≤ key x := by
      intro y hy
      exact (List.pairwise_append.mp h).2.2 y hy x (List.mem_cons_self x xs)
    simp only [List.foldl_cons]
    rw [insertJS_of_forall_ge x
      (fun y hy hlt => absurd ((hcmp x y).mp hlt) (not_lt.mpr (hx y hy)))]
    have h2 : ((acc ++ [x]) ++ xs).Pairwise (fun a b => key a ≤ key b) := by
      simpa [List.append_assoc] using h
    rw [ih (acc ++ [x]) h2]
    simp

/-- The integer difference comparator decides the order of its key. -/
lemma sub_cmp_iff (key : α → Int) :
    ∀ a b : α, (fun a b => key a - key b) a b < 0 ↔ key a < key b := by
  intro a b
  simp only
  omega

/-- The sign comparator `qcmp` decides the order of its key. -/
lemma qcmp_cmp_iff (key : α → ℚ) :
    ∀ a b : α, qcmp (key a) (key b) < 0 ↔ key a < key b := by
  intro a b
  simp only [qcmp]
  split
  · simp_all
  · split <;> simp_all

end SortLemmas

open JsModel SortableTable StockService Ledger Fixtures

/-- C9: the sort-toggle transition cycles unsorted → ascending →
descending → unsorted on repeated toggles of the same column (three
consecutive toggles starting from unsorted return to unsorted), and
toggling a column different from the current sort column always sets
that column to ascending. -/
theorem c9_sort_toggle_cycle (k : String) (s : SortState) :
    handleSort ⟨none, none⟩ k = ⟨some k, some SortDir.asc⟩
    ∧ handleSort ⟨some k, some SortDir.asc⟩ k = ⟨some k, some SortDir.desc⟩
    ∧ handleSort ⟨some k, some SortDir.desc⟩ k = ⟨none, none⟩
    ∧ handleSort (handleSort (handleSort ⟨none, none⟩ k) k) k = ⟨none, none⟩
    ∧ (s.column ≠ some k → handleSort s k = ⟨some k, some SortDir.asc⟩) := by
  refine ⟨by simp [handleSort], by simp [handleSort], by simp [handleSort],
    by simp [handleSort], fun h => by simp [handleSort, h]⟩

/-- Witness for C9: toggling column `X` while column `Y` is the
ascending sort column resets the sort to column `X` ascending. -/
theorem c9_sort_toggle_cycle_witness :
    handleSort ⟨some "Y", some SortDir.asc⟩ "X" = ⟨some "X", some SortDir.asc⟩ :=
  (c9_sort_toggle_cycle "X" ⟨some "Y", some SortDir.asc⟩).2.2.2.2 (by decide)

/-- C10 (implicit): a cell whose string form is empty or all
whitespace passes numeric coercion as the number 0, so against any
numeric cell it compares numerically (as 0), and against the cell
`"0"` it compares equal — the locale-text fallback is not taken. -/
theorem c10_whitespace_coerces_to_zero (s t : String) (y : ℚ)
    (hws : s.data.all isWs) :
    jsNumber s = some 0
    ∧ (jsNumber t = some y → defaultCompare s t = qcmp 0 y)
    ∧ defaultCompare s "0" = 0 := by
  have htrim : trimChars s.data = [] := by
    have h1 : ∀ l : List Char, l.all isWs → trimL l = [] := by
      intro l
      induction l with
      | nil => intro _; rfl
      | cons c cs ih =>
        intro h
        simp only [List.all_cons, Bool.and_eq_true] at h
        simp [trimL, h.1, ih h.2]
    have h2 : trimL s.data = [] := h1 _ hws
    simp [trimChars, h2, trimL]
  have hnum : jsNumber s = some 0 := by simp [jsNumber, htrim]
  refine ⟨hnum, fun ht => ?_, ?_⟩
  · simp [defaultCompare, hnum, ht]
  · have h0 : jsNumber "0" = some 0 := by decide
    simp [defaultCompare, hnum, h0, qcmp]

/-- Witness for C10 at the all-whitespace cell `" "` and the numeric
cell `"5"`. -/
theorem c10_whitespace_coerces_to_zero_witness :
    jsNumber " " = some 0
    ∧ defaultCompare " " "5" = qcmp 0 5
    ∧ defaultCompare " " "0" = 0 :=
  have h := c10_whitespace_coerces_to_zero " " "5" 5 (by decide)
  ⟨h.1, h.2.1 (by decide), h.2.2⟩

/-- C1 (code bug evidence): on a provider payload carrying the
rate-notice marker (`Note` mentioning call frequency, or an
`Information` field), both fetchers classify the failure internally
as a rate limit (last conjunct), but the enclosing `catch` swallows
the thrown `RateLimitError`, so the caller receives exactly the same
outcome as for a malformed/empty payload — `null` for a quote, `[]`
for a history — and cannot distinguish `RateLimited` from
`QuoteUnavailable`.  Caches stay untouched on every failure path, and
nothing is thrown past the boundary. -/
theorem c1_rate_limit_swallowed :
    fetchStockPrice "AAPL" 0 rlQuoteResp st0 = (none, st0)
    ∧ fetchStockPrice "AAPL" 0 infoQuoteResp st0 = (none, st0)
    ∧ fetchStockPrice "AAPL" 0 emptyQuoteResp st0 = (none, st0)
    ∧ fetchHistoricalData "AAPL" 0 rlHistResp hst0 = ([], hst0)
    ∧ fetchHistoricalData "AAPL" 0 emptyHistResp hst0 = ([], hst0)
    ∧ tryQuote "AAPL" rlQuoteResp = Except.error FetchErr.rateLimit
    ∧ tryHistory rlHistResp = Except.error FetchErr.rateLimit := by
  exact ⟨rfl, rfl, rfl, rfl, rfl, rfl, rfl⟩

/-- Counterexample for C2: in the column `["10", "9", "apple"]`, which
contains the non-numeric cell `"apple"`, the engine still compares
the pair `("10", "9")` numerically and sorts the column ascending to
`["9", "10", "apple"]` — not to `["10", "9", "apple"]`, the result of
falling back fully to locale-text comparison for all cells (second
conjunct).  The claimed full fallback to text comparison for every
cell of a mixed column therefore fails. -/
theorem c2_mixed_column_counterexample :
    ((sortedAndFilteredData [colV] [] (some "v") (some SortDir.asc)
        [rowOf "10", rowOf "9", rowOf "apple"]).map (fun r => r "v")
      = ["9", "10", "apple"])
    ∧ sortJS localeCompareHe ["10", "9", "apple"] = ["10", "9", "apple"]
    ∧ (["9", "10", "apple"] : List String) ≠ ["10", "9", "apple"]
    ∧ defaultCompare "10" "9" = 1
    ∧ localeCompareHe "10" "9" = -1 := by
  exact ⟨rfl, by decide, by decide, by decide, by decide⟩

set_option maxHeartbeats 1000000 in
/-- C2 (amended): the default comparison is selected per pair of
cells, not per column — when both cells coerce to numbers the pair
compares numerically (even inside a column that also contains
non-numeric cells), otherwise the pair compares as locale-aware text;
consequently an all-numeric column `["10", "2", "33"]` sorts ascending
to `["2", "10", "33"]`, and any column whose cells all coerce to
numbers is sorted in numeric order. -/
theorem c2_default_compare_per_pair :
    (∀ (a b : String) (x y : ℚ), jsNumber a = some x → jsNumber b = some y →
      defaultCompare a b = qcmp x y)
    ∧ (∀ a b : String, jsNumber a = none ∨ jsNumber b = none →
      defaultCompare a b = localeCompareHe a b)
    ∧ ((sortedAndFilteredData [colV] [] (some "v") (some SortDir.asc)
        [rowOf "10", rowOf "2", rowOf "33"]).map (fun r => r "v")
      = ["2", "10", "33"])
    ∧ (∀ (data : List Row) (key : Row → ℚ),
      (∀ r ∈ data, jsNumber (r "v") = some (key r)) →
      (sortedAndFilteredData [colV] [] (some "v") (some SortDir.asc) data).Pairwise
        (fun r1 r2 => key r1 ≤ key r2)) := by
  refine ⟨?_, ?_, rfl, ?_⟩
  · intro a b x y hx hy
    simp [defaultCompare, hx, hy]
  · intro a b h
    rcases h with h | h <;> cases hb : jsNumber b <;> cases ha : jsNumber a <;>
      simp_all [defaultCompare]
  · intro data key hnum
    have happly : sortedAndFilteredData [colV] [] (some "v") (some SortDir.asc) data
        = sortJS (fun a b => defaultCompare (a "v") (b "v")) data := rfl
    have hcongr : sortJS (fun a b => defaultCompare (a "v") (b "v")) data
        = sortJS (fun a b => qcmp (key a) (key b)) data := by
      apply sortJS_congr
      intro r1 h1 r2 h2
      simp [defaultCompare, hnum r1 h1, hnum r2 h2]
    rw [happly, hcongr]
    exact sortJS_sorted _ key (qcmp_cmp_iff key) data

/-- Witness for C2 at the all-numeric column `["10", "2", "33"]`. -/
theorem c2_default_compare_per_pair_witness :
    defaultCompare "10" "2" = qcmp 10 2
    ∧ defaultCompare "2" "apple" = localeCompareHe "2" "apple"
    ∧ (sortedAndFilteredData [colV] [] (some "v") (some SortDir.asc)
        [rowOf "10", rowOf "2", rowOf "33"]).Pairwise
        (fun r1 r2 => jsCellValue r1 ≤ jsCellValue r2) :=
  ⟨c2_default_compare_per_pair.1 "10" "2" 10 2 (by decide) (by decide),
   c2_default_compare_per_pair.2.1 "2" "apple" (Or.inr (by decide)),
   c2_default_compare_per_pair.2.2.2 [rowOf "10", rowOf "2", rowOf "33"] jsCellValue
     (by intro r hr; fin_cases hr <;> decide)⟩

/-- Counterexample for C3: the column `a` is marked neither sortable
nor filterable, yet a filter entry for it is applied (first two
conjuncts: the filtered output differs from the output with the entry
removed) and a sort key naming it is applied (last two conjuncts: the
output is reordered although the column is not sortable). -/
theorem c3_flags_counterexample :
    ((sortedAndFilteredData [colA] [("a", "x")] none none [rowX, rowY]).map
        (fun r => r "a") = ["x"])
    ∧ ((sortedAndFilteredData [colA] [] none none [rowX, rowY]).map
        (fun r => r "a") = ["x", "y"])
    ∧ ((sortedAndFilteredData [colA] [] (some "a") (some SortDir.asc)
        [rowY, rowX]).map (fun r => r "a") = ["x", "y"])
    ∧ ((sortedAndFilteredData [colA] [] none none [rowY, rowX]).map
        (fun r => r "a") = ["y", "x"]) := by
  exact ⟨rfl, rfl, rfl, rfl⟩

/-- C3 (amended): the query computation ignores the `sortable`,
`filterable` and `filterType` flags entirely — its output is invariant
under arbitrarily rewriting those flags on every column — because the
filter pass never consults the column descriptors and the sort pass
reads only the key and the custom comparator.  The flags only control
whether the UI renders the sort button and the filter input, so
through the component itself such filter/sort entries are never
created for a flagged column. -/
theorem c3_flags_ignored_by_query (columns : List ColumnSpec)
    (f g h : ColumnSpec → Bool) (filters : List (String × String))
    (sc : Option String) (sd : Option SortDir) (data : List Row) :
    sortedAndFilteredData
        (columns.map (fun c => ⟨c.key, f c, g c, h c, c.comparator⟩))
        filters sc sd data
      = sortedAndFilteredData columns filters sc sd data := by
  cases sc with
  | none => cases sd <;> rfl
  | some key =>
    cases sd with
    | none => rfl
    | some dir =>
      have hcol : (columns.map
            (fun c => (⟨c.key, f c, g c, h c, c.comparator⟩ : ColumnSpec))).find?
            (fun c => c.key == key)
          = Option.map (fun c => (⟨c.key, f c, g c, h c, c.comparator⟩ : ColumnSpec))
              (columns.find? (fun c => c.key == key)) := by
        rw [List.find?_map]; rfl
      simp only [sortedAndFilteredData, applySort, hcol]
      cases hfound : columns.find? (fun c => c.key == key) <;>
        simp only [hfound, Option.map_none, Option.map_some] <;> rfl

/-- C4: quote lookup consults the transient store first — a fresh
entry (age under 5 minutes) is returned as-is, with both stores
unchanged and the provider response never consulted; on transient
miss with a fresh persistent entry (age under 24 hours), the
persistent entry is returned and back-filled into the transient store
with its original timestamp, again independently of the provider
response; only when both tiers miss does the network path run, and a
successful fetch writes through to both stores with the current
timestamp. -/
theorem c4_two_tier_cache (symbol : String) (now : Int)
    (resp resp2 : QuoteResponse) (st : FetchState) :
    (∀ e, st.mem symbol = some e → now - e.timestamp < CACHE_DURATION →
      fetchStockPrice symbol now resp st = (some e.data, st)
      ∧ fetchStockPrice symbol now resp st = fetchStockPrice symbol now resp2 st)
    ∧ ((∀ e, st.mem symbol = some e → ¬(now - e.timestamp < CACHE_DURATION)) →
      ∀ le, st.loc ("stock_price_" ++ symbol) = some le →
        now - le.timestamp < LOCAL_STORAGE_CACHE_DURATION →
        fetchStockPrice symbol now resp st
          = (some le.data, ⟨st.mem.set symbol le, st.loc⟩)
        ∧ fetchStockPrice symbol now resp st = fetchStockPrice symbol now resp2 st)
    ∧ ((∀ e, st.mem symbol = some e → ¬(now - e.timestamp < CACHE_DURATION)) →
      (∀ le, st.loc ("stock_price_" ++ symbol) = some le →
        ¬(now - le.timestamp < LOCAL_STORAGE_CACHE_DURATION)) →
      ∀ r, tryQuote symbol resp = Except.ok (some r) →
        fetchStockPrice symbol now resp st
          = (some r, ⟨st.mem.set symbol ⟨r, now⟩,
              st.loc.set ("stock_price_" ++ symbol) ⟨r, now⟩⟩)) := by
  refine ⟨?_, ?_, ?_⟩
  · intro e he hfresh
    constructor <;> simp [fetchStockPrice, he, hfresh]
  · intro hmem le hle hfresh
    have hnet : fetchQuoteLocalTier symbol now resp st
        = (some le.data, ⟨st.mem.set symbol le, st.loc⟩) := by
      simp [fetchQuoteLocalTier, hle, hfresh]
    have hnet2 : fetchQuoteLocalTier symbol now resp2 st
        = (some le.data, ⟨st.mem.set symbol le, st.loc⟩) := by
      simp [fetchQuoteLocalTier, hle, hfresh]
    cases hm : st.mem symbol with
    | none => simp [fetchStockPrice, hm, hnet, hnet2]
    | some e => simp [fetchStockPrice, hm, hmem e hm, hnet, hnet2]
  · intro hmem hloc r htry
    have hnet : fetchQuoteNet symbol now resp st
        = (some r, ⟨st.mem.set symbol ⟨r, now⟩,
            st.loc.set ("stock_price_" ++ symbol) ⟨r, now⟩⟩) := by
      simp [fetchQuoteNet, htry]
    have htier : fetchQuoteLocalTier symbol now resp st
        = (some r, ⟨st.mem.set symbol ⟨r, now⟩,
            st.loc.set ("stock_price_" ++ symbol) ⟨r, now⟩⟩) := by
      cases hl : st.loc ("stock_price_" ++ symbol) with
      | none => simp [fetchQuoteLocalTier, hl, hnet]
      | some le => simp [fetchQuoteLocalTier, hl, hloc le hl, hnet]
    cases hm : st.mem symbol with
    | none => simp [fetchStockPrice, hm, htier]
    | some e => simp [fetchStockPrice, hm, hmem e hm, htier]

/-- Witness for C4, replaying the freshness scenarios of the spec: a
quote captured at time 0 is served from the transient store at
T+4min; at T+6min the transient tier misses and the persistent entry
is served and back-filled with its original timestamp; at T+25h both
tiers miss and a successful network fetch is returned and
written through with the fresh timestamp. -/
theorem c4_two_tier_cache_witness :
    fetchStockPrice "AAPL" 240000 emptyQuoteResp stMem = (some pAAPL, stMem)
    ∧ fetchStockPrice "AAPL" 360000 emptyQuoteResp stLoc
        = (some pAAPL, ⟨stLoc.mem.set "AAPL" ⟨pAAPL, 0⟩, stLoc.loc⟩)
    ∧ fetchStockPrice "AAPL" 90000000 goodQuoteResp stLoc
        = (some ⟨parseQ "190.5", parseQ "1.5", parseQ ⟨dropFirstPercent "0.79%".data⟩, "AAPL"⟩,
            ⟨stLoc.mem.set "AAPL"
               ⟨⟨parseQ "190.5", parseQ "1.5", parseQ ⟨dropFirstPercent "0.79%".data⟩, "AAPL"⟩, 90000000⟩,
             stLoc.loc.set "stock_price_AAPL"
               ⟨⟨parseQ "190.5", parseQ "1.5", parseQ ⟨dropFirstPercent "0.79%".data⟩, "AAPL"⟩, 90000000⟩⟩) := by
  refine ⟨?_, ?_, ?_⟩
  · exact ((c4_two_tier_cache "AAPL" 240000 emptyQuoteResp emptyQuoteResp stMem).1
      ⟨pAAPL, 0⟩ rfl (by decide)).1
  · exact ((c4_two_tier_cache "AAPL" 360000 emptyQuoteResp emptyQuoteResp stLoc).2.1
      (fun e he => by simp [stLoc] at he) ⟨pAAPL, 0⟩ rfl (by decide)).1
  · exact (c4_two_tier_cache "AAPL" 90000000 goodQuoteResp goodQuoteResp stLoc).2.2
      (fun e he => by simp [stLoc] at he)
      (fun le hle => by
        have : le = ⟨pAAPL, 0⟩ := by
          simpa [stLoc] using hle.symm
        simp [this]
        decide)
      ⟨parseQ "190.5", parseQ "1.5", parseQ ⟨dropFirstPercent "0.79%".data⟩, "AAPL"⟩ (by rfl)

/-- Chunking the empty list yields no groups, at any fuel. -/
lemma chunks5_nil (fuel : Nat) : chunks5 fuel [] = [] := by cases fuel <;> rfl

/-- Chunking a non-empty list yields at least one group. -/
lemma chunks5_ne_nil (fuel : Nat) (l : List String) (hl : l ≠ []) (hf : 1 ≤ fuel) :
    chunks5 fuel l ≠ [] := by
  cases fuel with
  | zero => omega
  | succ f =>
    cases l with
    | nil => exact absurd rfl hl
    | cons x xs => simp [chunks5]

/-- The batch loop emits the reference groups with exactly one delay
interleaved between consecutive groups. -/
lemma batchLoop_eq_intersperse (fuel : Nat) :
    ∀ l : List String, l.length ≤ 5 * fuel →
      batchLoop fuel l
        = List.intersperse BatchEvent.delay ((chunks5 fuel l).map BatchEvent.group) := by
  induction fuel with
  | zero =>
    intro l h
    have hl : l = [] := List.eq_nil_of_length_eq_zero (by omega)
    subst hl; rfl
  | succ f ih =>
    intro l h
    cases l with
    | nil => rfl
    | cons x xs =>
      simp only [batchLoop, chunks5]
      by_cases hd : (x :: xs).drop 5 = []
      · rw [if_pos hd, hd, chunks5_nil]
        rfl
      · rw [if_neg hd]
        have hlen : ((x :: xs).drop 5).length ≤ 5 * f := by
          simp only [List.length_drop, List.length_cons] at *
          omega
        rw [ih _ hlen]
        have hf1 : 1 ≤ f := by
          have h0 : ((x :: xs).drop 5).length ≠ 0 :=
            fun h0 => hd (List.eq_nil_of_length_eq_zero h0)
          simp only [List.length_drop, List.length_cons] at h0 h
          omega
        obtain ⟨g, gs, hg⟩ : ∃ g gs, chunks5 f ((x :: xs).drop 5) = g :: gs := by
          cases hc : chunks5 f ((x :: xs).drop 5) with
          | nil => exact absurd hc (chunks5_ne_nil f _ hd hf1)
          | cons g gs => exact ⟨g, gs, rfl⟩
        rw [hg]
        rfl

/-- The number of groups is the ceiling of `length / 5`. -/
lemma chunks5_length (fuel : Nat) :
    ∀ l : List String, l.length ≤ 5 * fuel →
      (chunks5 fuel l).length = (l.length + 4) / 5 := by
  induction fuel with
  | zero =>
    intro l h
    have hl : l = [] := List.eq_nil_of_length_eq_zero (by omega)
    subst hl; rfl
  | succ f ih =>
    intro l h
    cases l with
    | nil => rfl
    | cons x xs =>
      simp only [chunks5, List.length_cons]
      rw [ih _ (by simp only [List.length_drop, List.length_cons] at *; omega)]
      simp only [List.length_drop, List.length_cons]
      omega

/-- The groups concatenate back to the identifier list, in order. -/
lemma chunks5_flatten (fuel : Nat) :
    ∀ l : List String, l.length ≤ 5 * fuel → (chunks5 fuel l).flatten = l := by
  induction fuel with
  | zero =>
    intro l h
    have hl : l = [] := List.eq_nil_of_length_eq_zero (by omega)
    subst hl; rfl
  | succ f ih =>
    intro l h
    cases l with
    | nil => rfl
    | cons x xs =>
      simp only [chunks5, List.flatten_cons]
      rw [ih _ (by simp only [List.length_drop, List.length_cons] at *; omega)]
      exact List.take_append_drop 5 (x :: xs)

/-- Every group is non-empty and holds at most five identifiers. -/
lemma chunks5_sizes (fuel : Nat) :
    ∀ l : List String, ∀ g ∈ chunks5 fuel l, g ≠ [] ∧ g.length ≤ 5 := by
  induction fuel with
  | zero => intro l g hg; simp [chunks5] at hg
  | succ f ih =>
    intro l g hg
    cases l with
    | nil => simp [chunks5] at hg
    | cons x xs =>
      simp only [chunks5, List.mem_cons] at hg
      rcases hg with rfl | hg
      · exact ⟨by simp, by simp⟩
      · exact ih _ g hg

/-- Every non-final group holds exactly five identifiers. -/
lemma chunks5_dropLast_sizes (fuel : Nat) :
    ∀ l : List String, l.length ≤ 5 * fuel →
      ∀ g ∈ (chunks5 fuel l).dropLast, g.length = 5 := by
  induction fuel with
  | zero =>
    intro l h g hg
    have hl : l = [] := List.eq_nil_of_length_eq_zero (by omega)
    subst hl; simp [chunks5] at hg
  | succ f ih =>
    intro l h g hg
    cases l with
    | nil => simp [chunks5] at hg
    | cons x xs =>
      simp only [chunks5] at hg
      by_cases hd : (x :: xs).drop 5 = []
      · rw [hd, chunks5_nil] at hg
        simp at hg
      · have hlen : ((x :: xs).drop 5).length ≤ 5 * f := by
          simp only [List.length_drop, List.length_cons] at *
          omega
        have hf1 : 1 ≤ f := by
          have h0 : ((x :: xs).drop 5).length ≠ 0 :=
            fun h0 => hd (List.eq_nil_of_length_eq_zero h0)
          simp only [List.length_drop, List.length_cons] at h0 h
          omega
        obtain ⟨g2, gs2, hg2⟩ : ∃ g2 gs2, chunks5 f ((x :: xs).drop 5) = g2 :: gs2 := by
          cases hc : chunks5 f ((x :: xs).drop 5) with
          | nil => exact absurd hc (chunks5_ne_nil f _ hd hf1)
          | cons a b => exact ⟨a, b, rfl⟩
        rw [hg2, List.dropLast_cons₂] at hg
        rcases List.mem_cons.mp hg with rfl | hgm
        · have h6 : 5 ≤ (x :: xs).length := by
            have h0 : ((x :: xs).drop 5).length ≠ 0 :=
              fun h0 => hd (List.eq_nil_of_length_eq_zero h0)
            simp only [List.length_drop, List.length_cons] at h0
            simp only [List.length_cons]
            omega
          simpa [List.length_take] using h6
        · exact ih _ hlen g (by rw [hg2]; exact hgm)

/-- Interleaving one delay between groups yields one delay fewer than
there are groups. -/
lemma countP_delay_intersperse (gs : List (List String)) :
    (List.intersperse BatchEvent.delay (gs.map BatchEvent.group)).countP isDelay
      = gs.length - 1 := by
  induction gs with
  | nil => rfl
  | cons g gs ih =>
    cases gs with
    | nil => rfl
    | cons g2 gs2 =>
      simp only [List.map_cons, List.intersperse_cons_cons, List.countP_cons]
      simp only [List.map_cons, List.intersperse_cons_cons] at ih
      simp [isDelay, ih]

/-- C7: batch quote fetching partitions the identifier list in order
into groups of five (last group possibly smaller — the groups are
non-empty, at most five wide, all non-final groups exactly five wide,
and concatenate back to the input), interleaves exactly one
inter-group delay between consecutive groups — so a delay follows a
group if and only if identifiers remain, `ceil(n/5) - 1` delays in
all — and each identifier settles independently: an identifier with a
successful fetch appears in the results map whatever happens to its
siblings, and no other identifier ever appears; twelve identifiers
give groups of sizes `[5, 5, 2]` and two delays. -/
theorem c7_batch_grouping (l : List String) (f : String → Option StockPrice) :
    batchSchedule l
      = List.intersperse BatchEvent.delay ((specGroups l).map BatchEvent.group)
    ∧ (specGroups l).flatten = l
    ∧ (∀ g ∈ specGroups l, g ≠ [] ∧ g.length ≤ 5)
    ∧ (∀ g ∈ (specGroups l).dropLast, g.length = 5)
    ∧ (batchSchedule l).countP isDelay = (l.length + 4) / 5 - 1
    ∧ (∀ s ∈ l, ∀ p, f s = some p → batchResults f l s = some p)
    ∧ (∀ s, s ∉ l → batchResults f l s = none)
    ∧ (specGroups syms12).map List.length = [5, 5, 2]
    ∧ (batchSchedule syms12).countP isDelay = 2 := by
  have hb : l.length ≤ 5 * l.length := by omega
  refine ⟨batchLoop_eq_intersperse l.length l hb, chunks5_flatten l.length l hb,
    fun g hg => chunks5_sizes l.length l g hg,
    fun g hg => chunks5_dropLast_sizes l.length l hb g hg, ?_, ?_, ?_, by decide, by decide⟩
  · show (batchLoop l.length l).countP isDelay = (l.length + 4) / 5 - 1
    rw [batchLoop_eq_intersperse l.length l hb, countP_delay_intersperse,
      chunks5_length l.length l hb]
  · intro s hs p hp
    simp [batchResults, hs, hp]
  · intro s hs
    simp [batchResults, hs]

/-- Witness for C7: with an oracle that succeeds on `s03` and fails on
`s07`, `s03` is in the results of the twelve-identifier batch, `s07`
and the absent `zzz` are not, and the schedule is three groups of
sizes `[5, 5, 2]` with two delays. -/
theorem c7_batch_grouping_witness :
    batchResults (fun s => if s = "s07" then none else some pAAPL) syms12 "s03"
        = some pAAPL
    ∧ batchResults (fun s => if s = "s07" then none else some pAAPL) syms12 "zzz"
        = none
    ∧ (specGroups syms12).map List.length = [5, 5, 2]
    ∧ (batchSchedule syms12).countP isDelay = 2 :=
  have h := c7_batch_grouping syms12 (fun s => if s = "s07" then none else some pAAPL)
  ⟨h.2.2.2.2.2.1 "s03" (by decide) pAAPL (by simp),
   h.2.2.2.2.2.2.1 "zzz" (by decide),
   h.2.2.2.2.2.2.2.1, h.2.2.2.2.2.2.2.2⟩

/-- Dropping the cumulative column recovers the sorted row list. -/
lemma withCumulative_map_toTxRow (c : ℚ) (l : List TxRow) :
    (withCumulative c l).map TxRowC.toTxRow = l := by
  induction l generalizing c with
  | nil => rfl
  | cons r rs ih => simp [withCumulative, ih]

/-- The cumulative column carries the running prefix sum of the signed
deltas, offset by the starting accumulator. -/
lemma withCumulative_getElem (c : ℚ) (l : List TxRow) :
    ∀ (i : Nat) (t : TxRowC), (withCumulative c l)[i]? = some t →
      t.cumulative = c + ((l.take (i + 1)).map TxRow.delta).sum := by
  induction l generalizing c with
  | nil => intro i t ht; simp [withCumulative] at ht
  | cons r rs ih =>
    intro i t ht
    cases i with
    | zero =>
      simp only [withCumulative, List.getElem?_cons_zero, Option.some.injEq] at ht
      subst ht
      simp
    | succ j =>
      simp only [withCumulative, List.getElem?_cons_succ] at ht
      have := ih (c + r.delta) j t ht
      simpa [List.take_succ_cons, add_assoc] using this

/-- C5: the per-security transaction history keeps exactly the rows
whose trimmed identifier equals the target exactly and whose action
tag is buy, sell or benefit-credit (first conjunct); it is the
timestamp-ascending stable sort of those rows (second and third
conjuncts); the cumulative column is the prefix sum of the signed
deltas, where sell rows subtract the parsed quantity and buy/benefit
rows add it (fourth and fifth conjuncts); on the rows
`[buy 10, sell 3, benefit 1]` the cumulative sequence is `[10, 7, 8]`
and the rollup quantity of the summary table is 8. -/
theorem c5_transaction_history (ticker : String) (rows : List LedgerRow) :
    (∀ row : LedgerRow, (txRowOf ticker row).isSome
       ↔ (jsTrim row.securityId = ticker
          ∧ (jsTrim row.actionType = ACTION_BUY ∨ jsTrim row.actionType = ACTION_SELL
             ∨ jsTrim row.actionType = ACTION_BENEFIT)))
    ∧ (transactionRows ticker rows).map TxRowC.toTxRow
        = sortJS (fun a b => a.timestamp - b.timestamp) (rows.filterMap (txRowOf ticker))
    ∧ (transactionRows ticker rows).Pairwise (fun a b => a.timestamp ≤ b.timestamp)
    ∧ (∀ (i : Nat) (t : TxRowC), (transactionRows ticker rows)[i]? = some t →
        t.cumulative
          = ((((transactionRows ticker rows).map TxRowC.toTxRow).take (i + 1)).map
              TxRow.delta).sum)
    ∧ (∀ (row : LedgerRow) (t : TxRow), txRowOf ticker row = some t →
        (jsTrim row.actionType = ACTION_SELL →
          t.delta = -parseFloatOr0 (jsTrim row.quantity))
        ∧ (jsTrim row.actionType ≠ ACTION_SELL →
          t.delta = parseFloatOr0 (jsTrim row.quantity)))
    ∧ (transactionRows "AAPL" exRows).map TxRowC.cumulative = [10, 7, 8]
    ∧ (stockRollup "AAPL" exRows).quantity = 8 := by
  have hres : transactionRows ticker rows
      = withCumulative 0 (sortJS (fun (a : TxRow) b => a.timestamp - b.timestamp)
          (rows.filterMap (txRowOf ticker))) := rfl
  refine ⟨?_, ?_, ?_, ?_, ?_, ?_, ?_⟩
  · intro row
    simp only [txRowOf]
    split
    case isTrue h =>
      simp only [Option.isSome_none, Bool.false_eq_true, false_iff]
      tauto
    case isFalse h =>
      simp only [Option.isSome_some, true_iff]
      push_neg at h
      tauto
  · exact withCumulative_map_toTxRow 0 _
  · have hs : (sortJS (fun (a : TxRow) b => a.timestamp - b.timestamp)
        (rows.filterMap (txRowOf ticker))).Pairwise
        (fun a b => a.timestamp ≤ b.timestamp) :=
      sortJS_sorted _ (fun t : TxRow => t.timestamp) (sub_cmp_iff _) _
    rw [← withCumulative_map_toTxRow 0 (sortJS (fun (a : TxRow) b => a.timestamp - b.timestamp)
        (rows.filterMap (txRowOf ticker)))] at hs
    rw [hres]
    exact (@List.pairwise_map TxRowC TxRow TxRowC.toTxRow
      (fun a b => a.timestamp ≤ b.timestamp) _).mp hs
  · intro i t ht
    rw [hres] at ht
    rw [hres, withCumulative_map_toTxRow]
    simpa using withCumulative_getElem 0 _ i t ht
  · intro row t ht
    simp only [txRowOf] at ht
    split at ht
    · exact absurd ht (by simp)
    next hcond =>
      injection ht with ht
      have hsb : ACTION_SELL ≠ ACTION_BUY := by decide
      have hsben : ACTION_SELL ≠ ACTION_BENEFIT := by decide
      constructor
      · intro hsell
        rw [← ht]
        simp [hsell, hsben, hsb]
      · intro hnot
        push_neg at hcond
        have hor : jsTrim row.actionType = ACTION_BENEFIT
            ∨ jsTrim row.actionType = ACTION_BUY := by
          rcases hcond with ⟨hid, hact⟩
          by_cases hb : jsTrim row.actionType = ACTION_BUY
          · exact Or.inr hb
          · by_cases hben : jsTrim row.actionType = ACTION_BENEFIT
            · exact Or.inl hben
            · exact absurd (hact hb hnot) hben
        rw [← ht]
        rcases hor with h1 | h1 <;> simp [h1]
  · with_unfolding_all rfl
  · with_unfolding_all rfl

/-- Witness for C5 at the concrete rows `[buy 10, sell 3, benefit 1]`:
the cumulative column is `[10, 7, 8]`, the rollup quantity is 8, the
sell row carries delta `-quantity`, and the third history row's
cumulative equals the sum of the first three deltas. -/
theorem c5_transaction_history_witness :
    (transactionRows "AAPL" exRows).map TxRowC.cumulative = [10, 7, 8]
    ∧ (stockRollup "AAPL" exRows).quantity = 8
    ∧ (∃ t : TxRow, txRowOf "AAPL" exSell = some t
        ∧ t.delta = -parseFloatOr0 (jsTrim exSell.quantity))
    ∧ (∃ t : TxRowC, (transactionRows "AAPL" exRows)[2]? = some t
        ∧ t.cumulative
          = ((((transactionRows "AAPL" exRows).map TxRowC.toTxRow).take (2 + 1)).map
              TxRow.delta).sum) := by
  have h := c5_transaction_history "AAPL" exRows
  refine ⟨h.2.2.2.2.2.1, h.2.2.2.2.2.2, ?_, ?_⟩
  · exact ⟨_, by with_unfolding_all rfl,
      (h.2.2.2.2.1 exSell _ (by with_unfolding_all rfl)).1 (by decide)⟩
  · exact ⟨_, by with_unfolding_all rfl,
      h.2.2.2.1 2 _ (by with_unfolding_all rfl)⟩

/-- Counterexample for C6: an unparseable non-empty date renders as
its trimmed raw text, not as an empty label (first two conjuncts,
against the claimed empty display label); a deposit row with an empty
date and a dividend row with an unparseable date are excluded from
their views entirely, not included-and-sorted-first (last two
conjuncts). -/
theorem c6_sentinel_counterexample :
    formatDateLabel " xyz " = "xyz"
    ∧ (("xyz" : String) ≠ "")
    ∧ depositsByMonth [depNoDate] = []
    ∧ dividendRows "AAPL" [divNoDate] = [] := by
  exact ⟨rfl, by decide, by with_unfolding_all rfl, by with_unfolding_all rfl⟩

/-- A mapping producing `none` off the filter keeps `filterMap`
unchanged when the filtered-out elements are unmapped. -/
lemma filterMap_filter_of_none {α β : Type} (f : α → Option β) (p : α → Bool)
    (h : ∀ a, p a = false → f a = none) :
    ∀ l : List α, l.filterMap f = (l.filter p).filterMap f := by
  intro l
  induction l with
  | nil => rfl
  | cons a as ih =>
    cases hp : p a with
    | false => simp [List.filterMap_cons, List.filter_cons, hp, h a hp, ih]
    | true => simp [List.filterMap_cons, List.filter_cons, hp, ih]

/-- A sentinel-dated row is skipped by the deposit collector. -/
lemma depositOf_sentinel (row : LedgerRow)
    (h : parseDateToTimestamp (jsTrim row.date) = 0) : depositOf row = none := by
  simp only [depositOf, h]
  split
  · rfl
  · simp

/-- A sentinel-dated row is skipped by the dividend fold. -/
lemma divRowStep_sentinel (ticker : String) (byDate : List DivGroup)
    (row : LedgerRow) (h : parseDateToTimestamp (jsTrim row.date) = 0) :
    divRowStep ticker byDate row = byDate := by
  simp only [divRowStep, h]
  split
  · rfl
  · split
    · rfl
    · simp

/-- C6 (amended): empty or unparseable date input parses to the
sentinel timestamp 0 without an error; the empty input yields an
empty display label, but an unparseable non-empty input yields its
trimmed raw text as the label; the per-security transaction history
still includes such rows and sorts them before every
positively-timestamped row; the per-security dividend history and the
deposit bucketing exclude sentinel-dated rows — their outputs are
unchanged when all such rows are deleted. -/
theorem c6_sentinel_dates (ticker : String) (rows : List LedgerRow)
    (row : LedgerRow) (t : TxRow) :
    parseDateToTimestamp "" = 0
    ∧ formatDateLabel "" = ""
    ∧ parseDateToTimestamp " xyz " = 0
    ∧ formatDateLabel " xyz " = "xyz"
    ∧ (row ∈ rows → txRowOf ticker row = some t →
        ∃ c, (⟨t, c⟩ : TxRowC) ∈ transactionRows ticker rows)
    ∧ (∀ (i j : Nat) (ti tj : TxRowC), i ≤ j →
        (transactionRows ticker rows)[i]? = some ti →
        (transactionRows ticker rows)[j]? = some tj →
        tj.timestamp = 0 → ti.timestamp ≤ 0)
    ∧ (parseDateToTimestamp (jsTrim row.date) = 0 → depositOf row = none)
    ∧ depositsByMonth rows
        = depositsByMonth
            (rows.filter (fun r => parseDateToTimestamp (jsTrim r.date) != 0))
    ∧ dividendRows ticker rows
        = dividendRows ticker
            (rows.filter (fun r => parseDateToTimestamp (jsTrim r.date) != 0)) := by
  refine ⟨rfl, rfl, rfl, rfl, ?_, ?_, depositOf_sentinel row, ?_, ?_⟩
  · intro hrow ht
    have h1 : t ∈ rows.filterMap (txRowOf ticker) :=
      List.mem_filterMap.mpr ⟨row, hrow, ht⟩
    have h2 : t ∈ sortJS (fun (a : TxRow) b => a.timestamp - b.timestamp)
        (rows.filterMap (txRowOf ticker)) := (mem_sortJS _).mpr h1
    rw [← withCumulative_map_toTxRow 0
      (sortJS (fun (a : TxRow) b => a.timestamp - b.timestamp)
        (rows.filterMap (txRowOf ticker)))] at h2
    rcases List.mem_map.mp h2 with ⟨y, hy, hyt⟩
    refine ⟨y.cumulative, ?_⟩
    have hyy : y = ⟨t, y.cumulative⟩ := by
      cases y
      simp_all
    rw [← hyy]
    exact hy
  · intro i j ti tj hij hi hj htj
    rcases Nat.lt_or_ge i j with hlt | hge
    · have hpair : (transactionRows ticker rows).Pairwise
          (fun a b => a.timestamp ≤ b.timestamp) := by
        have hs : (sortJS (fun (a : TxRow) b => a.timestamp - b.timestamp)
            (rows.filterMap (txRowOf ticker))).Pairwise
            (fun a b => a.timestamp ≤ b.timestamp) :=
          sortJS_sorted _ (fun t : TxRow => t.timestamp) (sub_cmp_iff _) _
        rw [← withCumulative_map_toTxRow 0
          (sortJS (fun (a : TxRow) b => a.timestamp - b.timestamp)
            (rows.filterMap (txRowOf ticker)))] at hs
        exact (@List.pairwise_map TxRowC TxRow TxRowC.toTxRow
          (fun a b => a.timestamp ≤ b.timestamp) _).mp hs
    -- the sorted order bounds the earlier element by the sentinel
      rcases List.getElem?_eq_some_iff.mp hi with ⟨hilen, hieq⟩
      rcases List.getElem?_eq_some_iff.mp hj with ⟨hjlen, hjeq⟩
      have := List.pairwise_iff_getElem.mp hpair i j hilen hjlen hlt
      rw [hieq, hjeq] at this
      omega
    · have hji : j = i := by omega
      subst hji
      rw [hi] at hj
      injection hj with hj
      subst hj
      omega
  · have heq : rows.filterMap depositOf
        = (rows.filter (fun r => parseDateToTimestamp (jsTrim r.date) != 0)).filterMap
            depositOf := by
      refine filterMap_filter_of_none depositOf _ ?_ rows
      intro a ha
      refine depositOf_sentinel a ?_
      simpa using ha
    simp only [depositsByMonth, heq]
  · have heq : rows.foldl (divRowStep ticker) []
        = (rows.filter (fun r => parseDateToTimestamp (jsTrim r.date) != 0)).foldl
            (divRowStep ticker) [] := by
      suffices haux : ∀ (l : List LedgerRow) (acc : List DivGroup),
          l.foldl (divRowStep ticker) acc
            = (l.filter (fun r => parseDateToTimestamp (jsTrim r.date) != 0)).foldl
                (divRowStep ticker) acc from haux rows []
      intro l
      induction l with
      | nil => intro acc; rfl
      | cons r rest ih =>
        intro acc
        by_cases hr : parseDateToTimestamp (jsTrim r.date) = 0
        · simp only [List.foldl_cons, List.filter_cons, hr,
            divRowStep_sentinel ticker acc r hr]
          simpa using ih acc
        · simp only [List.foldl_cons, List.filter_cons]
          have : (parseDateToTimestamp (jsTrim r.date) != 0) = true := by
            simpa using hr
          rw [this]
          simpa using ih (divRowStep ticker acc r)
    simp only [dividendRows, heq]

/-- Witness for C6: a buy row with an empty date is still part of the
transaction history and comes first; the sentinel-dated deposit row is
dropped by the collector and removing it leaves the deposit series
unchanged. -/
theorem c6_sentinel_dates_witness :
    (∃ (t : TxRow) (c : ℚ), txRowOf "AAPL" buyNoDate = some t
        ∧ (⟨t, c⟩ : TxRowC) ∈ transactionRows "AAPL" [buyNoDate, exBuy])
    ∧ (∃ ti : TxRowC, (transactionRows "AAPL" [buyNoDate, exBuy])[0]? = some ti
        ∧ ti.timestamp ≤ 0)
    ∧ depositOf depNoDate = none
    ∧ depositsByMonth [depNoDate, depJan]
        = depositsByMonth ([depNoDate, depJan].filter
            (fun r => parseDateToTimestamp (jsTrim r.date) != 0)) := by
  refine ⟨?_, ?_, ?_, ?_⟩
  · obtain ⟨c, hc⟩ := (c6_sentinel_dates "AAPL" [buyNoDate, exBuy] buyNoDate _).2.2.2.2.1
      (List.mem_cons_self _ _) (by with_unfolding_all rfl)
    exact ⟨_, c, by with_unfolding_all rfl, hc⟩
  · refine ⟨_, by with_unfolding_all rfl, ?_⟩
    exact (c6_sentinel_dates "AAPL" [buyNoDate, exBuy] buyNoDate
        ⟨0, "", "", 0, 0, 0, 0⟩).2.2.2.2.2.1 0 0 _ _ (le_refl 0)
      (by with_unfolding_all rfl) (by with_unfolding_all rfl)
      (by with_unfolding_all rfl)
  · exact (c6_sentinel_dates "X" [] depNoDate ⟨0, "", "", 0, 0, 0, 0⟩).2.2.2.2.2.2.1
      (by rfl)
  · exact (c6_sentinel_dates "X" [depNoDate, depJan] depNoDate
      ⟨0, "", "", 0, 0, 0, 0⟩).2.2.2.2.2.2.2.1

/-- Membership in the consecutive month index range. -/
lemma mem_monthRange {a s e : Int} : a ∈ monthRange s e ↔ s ≤ a ∧ a ≤ e := by
  unfold monthRange
  rw [List.mem_map]
  constructor
  · rintro ⟨i, hi, rfl⟩
    rw [List.mem_range] at hi
    omega
  · intro h
    exact ⟨(a - s).toNat, by rw [List.mem_range]; omega, by omega⟩

/-- The month index range is strictly increasing. -/
lemma monthRange_pairwise (s e : Int) : (monthRange s e).Pairwise (· < ·) := by
  unfold monthRange
  refine List.pairwise_map.mpr ?_
  refine List.Pairwise.imp ?_ (List.pairwise_lt_range _)
  intro a b hab
  omega

/-- The month index range has no duplicates. -/
lemma monthRange_nodup (s e : Int) : (monthRange s e).Nodup := by
  refine List.Pairwise.imp ?_ (monthRange_pairwise s e)
  intro a b hab
  omega

/-- The month index is monotone in the date code. -/
lemma monthIdxOf_mono {a b : Int} (h : a ≤ b) : monthIdxOf a ≤ monthIdxOf b := by
  unfold monthIdxOf
  rw [Int.fdiv_eq_ediv _ (by omega), Int.fdiv_eq_ediv _ (by omega)]
  exact Int.ediv_le_ediv (by omega) h

/-- The default of `getLastD` is drawn from the list. -/
lemma getLastD_mem {α : Type} (x : α) (xs : List α) : xs.getLastD x ∈ x :: xs := by
  induction xs generalizing x with
  | nil => simp
  | cons y ys ih =>
    rw [List.getLastD_cons]
    exact List.mem_cons_of_mem x (ih y)

/-- With unique bucket keys, routing one deposit updates exactly the
matching bucket — expressed as a pointwise map. -/
lemma addDepositTo_eq_map (d : Deposit) :
    ∀ months : List MonthEntry, (months.map MonthEntry.monthKey).Nodup →
      addDepositTo months d
        = months.map (fun e =>
            if e.monthKey = monthIdxOf d.timestamp then
              { e with
                  amount := e.amount + d.amount
                  details := e.details ++ [(d.dateLabel, d.amount)] }
            else e) := by
  intro months
  induction months with
  | nil => intro _; rfl
  | cons e es ih =>
    intro hnd
    simp only [List.map_cons, List.nodup_cons] at hnd
    simp only [addDepositTo, List.map_cons]
    by_cases he : e.monthKey = monthIdxOf d.timestamp
    · rw [if_pos he, if_pos he]
      have hmap : es.map (fun e2 : MonthEntry =>
          if e2.monthKey = monthIdxOf d.timestamp then
            { e2 with
                amount := e2.amount + d.amount
                details := e2.details ++ [(d.dateLabel, d.amount)] }
          else e2) = es := by
        have hcongr : ∀ e2 ∈ es, (if e2.monthKey = monthIdxOf d.timestamp then
            ({ e2 with
                amount := e2.amount + d.amount
                details := e2.details ++ [(d.dateLabel, d.amount)] } : MonthEntry)
          else e2) = e2 := by
          intro e2 he2
          refine if_neg ?_
          intro hk
          exact hnd.1 (List.mem_map.mpr ⟨e2, he2, by rw [hk, ← he]⟩)
        calc es.map _ = es.map id := List.map_congr_left hcongr
        _ = es := List.map_id es
      rw [hmap]
    · rw [if_neg he, if_neg he, ih hnd.2]

/-- Folding the deposits through the router adds, to every bucket with
a unique key, exactly the amounts and detail pairs of the deposits of
its month, in deposit order. -/
lemma foldl_addDepositTo (ds : List Deposit) :
    ∀ months : List MonthEntry, (months.map MonthEntry.monthKey).Nodup →
      ds.foldl addDepositTo months
        = months.map (fun e =>
            { e with
                amount := e.amount
                  + ((ds.filter (fun d => monthIdxOf d.timestamp == e.monthKey)).map
                      Deposit.amount).sum
                details := e.details
                  ++ (ds.filter (fun d => monthIdxOf d.timestamp == e.monthKey)).map
                      (fun d => (d.dateLabel, d.amount)) }) := by
  induction ds with
  | nil =>
    intro months _
    simp only [List.foldl_nil, List.filter_nil, List.map_nil, List.sum_nil, add_zero,
      List.append_nil]
    exact (List.map_id months).symm
  | cons d ds ih =>
    intro months hnd
    simp only [List.foldl_cons]
    rw [addDepositTo_eq_map d months hnd]
    have hkeys : ((months.map (fun e : MonthEntry =>
        if e.monthKey = monthIdxOf d.timestamp then
          { e with
              amount := e.amount + d.amount
              details := e.details ++ [(d.dateLabel, d.amount)] }
        else e)).map MonthEntry.monthKey).Nodup := by
      rw [List.map_map]
      have hfun : ∀ e ∈ months, (MonthEntry.monthKey ∘ fun e : MonthEntry =>
          if e.monthKey = monthIdxOf d.timestamp then
            { e with
                amount := e.amount + d.amount
                details := e.details ++ [(d.dateLabel, d.amount)] }
          else e) e = MonthEntry.monthKey e := by
        intro e _
        by_cases he : e.monthKey = monthIdxOf d.timestamp <;>
          simp [Function.comp, he]
      rw [List.map_congr_left hfun]
      exact hnd
    rw [ih _ hkeys, List.map_map]
    refine List.map_congr_left ?_
    intro e _
    simp only [Function.comp]
    by_cases he : e.monthKey = monthIdxOf d.timestamp
    · have hb : (monthIdxOf d.timestamp == e.monthKey) = true := by
        simp [he]
      rw [if_pos he]
      simp only [List.filter_cons, hb, if_pos, List.map_cons, List.sum_cons]
      simp [add_assoc]
    · have hb : (monthIdxOf d.timestamp == e.monthKey) = false := by
        simp
        intro hk
        exact absurd hk.symm he
      rw [if_neg he]
      simp only [List.filter_cons, hb]
      simp

/-- The last element of a key-sorted non-empty list bounds every
member from above. -/
lemma pairwise_le_getLastD {α K : Type} [LinearOrder K] (key : α → K) :
    ∀ (x : α) (xs : List α),
      (x :: xs).Pairwise (fun a b => key a ≤ key b) →
      ∀ y ∈ x :: xs, key y ≤ key (xs.getLastD x) := by
  intro x xs
  induction xs generalizing x with
  | nil =>
    intro _ y hy
    simp only [List.getLastD_nil]
    rcases List.mem_cons.mp hy with rfl | hy2
    · exact le_refl _
    · simp at hy2
  | cons z zs ih =>
    intro h y hy
    rw [List.getLastD_cons]
    rcases List.mem_cons.mp hy with rfl | hy2
    · exact (List.pairwise_cons.mp h).1 _ (getLastD_mem z zs)
    · exact ih z (List.pairwise_cons.mp h).2 y hy2

/-- C8: for a non-empty deposit set (with designated earliest and
latest deposits), the deposit series carries exactly one bucket per
calendar month from the earliest to the latest deposit month
inclusive, in ascending order (first conjunct); every bucket amount is
the sum of its detail pairs (second conjunct); the detail pairs of a
bucket are exactly the `(dateLabel, amount)` pairs of the deposits of
its month (third conjunct); and a month with no deposits keeps amount
0 and an empty detail list (fourth conjunct). -/
theorem c8_deposit_buckets (rows : List LedgerRow) (dmin dmax : Deposit)
    (hmin : dmin ∈ rows.filterMap depositOf)
    (hmax : dmax ∈ rows.filterMap depositOf)
    (hbound : ∀ d ∈ rows.filterMap depositOf,
      dmin.timestamp ≤ d.timestamp ∧ d.timestamp ≤ dmax.timestamp) :
    (depositsByMonth rows).map MonthEntry.monthKey
        = monthRange (monthIdxOf dmin.timestamp) (monthIdxOf dmax.timestamp)
    ∧ (∀ e ∈ depositsByMonth rows, e.amount = (e.details.map Prod.snd).sum)
    ∧ (∀ e ∈ depositsByMonth rows,
        e.details.Perm
          (((rows.filterMap depositOf).filter
              (fun d => monthIdxOf d.timestamp == e.monthKey)).map
            (fun d => (d.dateLabel, d.amount))))
    ∧ (∀ e ∈ depositsByMonth rows,
        (∀ d ∈ rows.filterMap depositOf, monthIdxOf d.timestamp ≠ e.monthKey) →
        e.amount = 0 ∧ e.details = []) := by
  have hne : rows.filterMap depositOf ≠ [] := List.ne_nil_of_mem hmin
  obtain ⟨first, rest, hS⟩ : ∃ first rest,
      sortJS (fun (a : Deposit) b => a.timestamp - b.timestamp)
          (rows.filterMap depositOf) = first :: rest := by
    cases hS : sortJS (fun (a : Deposit) b => a.timestamp - b.timestamp)
        (rows.filterMap depositOf) with
    | nil =>
      exfalso
      have hperm := sortJS_perm (fun (a : Deposit) b => a.timestamp - b.timestamp)
        (rows.filterMap depositOf)
      rw [hS] at hperm
      exact hne hperm.symm.eq_nil
    | cons a b => exact ⟨a, b, rfl⟩
  have hSperm : (first :: rest).Perm (rows.filterMap depositOf) := by
    rw [← hS]; exact sortJS_perm _ _
  have hSsort : (first :: rest).Pairwise (fun a b => a.timestamp ≤ b.timestamp) := by
    rw [← hS]
    exact sortJS_sorted _ (fun d : Deposit => d.timestamp) (sub_cmp_iff _) _
  have hfirst_min : ∀ d ∈ first :: rest, first.timestamp ≤ d.timestamp := by
    intro d hd
    rcases List.mem_cons.mp hd with rfl | hd2
    · exact le_refl _
    · exact (List.pairwise_cons.mp hSsort).1 d hd2
  have hlast_max : ∀ d ∈ first :: rest, d.timestamp ≤ (rest.getLastD first).timestamp :=
    fun d hd => pairwise_le_getLastD (fun d : Deposit => d.timestamp) first rest hSsort d hd
  have hfirst_ts : first.timestamp = dmin.timestamp := by
    have h1 := (hbound first (hSperm.subset (List.mem_cons_self first rest))).1
    have h2 := hfirst_min dmin (hSperm.mem_iff.mpr hmin)
    omega
  have hlast_ts : (rest.getLastD first).timestamp = dmax.timestamp := by
    have h1 := (hbound (rest.getLastD first)
      (hSperm.subset (getLastD_mem first rest))).2
    have h2 := hlast_max dmax (hSperm.mem_iff.mpr hmax)
    omega
  have hout : depositsByMonth rows
      = sortJS (fun a b => a.timestamp - b.timestamp)
          ((first :: rest).foldl addDepositTo
            ((monthRange (monthIdxOf first.timestamp)
                (monthIdxOf (rest.getLastD first).timestamp)).map initMonth)) := by
    simp only [depositsByMonth, hS]
    rw [if_neg hne]
  have hkeys0 : (((monthRange (monthIdxOf first.timestamp)
      (monthIdxOf (rest.getLastD first).timestamp)).map initMonth).map
        MonthEntry.monthKey)
      = monthRange (monthIdxOf first.timestamp)
          (monthIdxOf (rest.getLastD first).timestamp) := by
    rw [List.map_map]
    have hid : ∀ i ∈ monthRange (monthIdxOf first.timestamp)
        (monthIdxOf (rest.getLastD first).timestamp),
        (MonthEntry.monthKey ∘ initMonth) i = id i := fun i _ => rfl
    rw [List.map_congr_left hid, List.map_id]
  have hout2 : depositsByMonth rows
      = sortJS (fun a b => a.timestamp - b.timestamp)
          ((monthRange (monthIdxOf first.timestamp)
              (monthIdxOf (rest.getLastD first).timestamp)).map
            (fun i : Int =>
              ({ monthKey := i
                 monthLabel := monthLabelOf i
                 timestamp := monthStartTime i
                 amount := 0
                   + (((first :: rest).filter
                        (fun d => monthIdxOf d.timestamp == i)).map
                       Deposit.amount).sum
                 details := []
                   ++ ((first :: rest).filter
                        (fun d => monthIdxOf d.timestamp == i)).map
                       (fun d => (d.dateLabel, d.amount)) } : MonthEntry))) := by
    rw [hout, foldl_addDepositTo (first :: rest) _
      (by rw [hkeys0]; exact monthRange_nodup _ _), List.map_map]
    refine congrArg _ (List.map_congr_left ?_)
    intro i _
    rfl
  have hsorted : (((monthRange (monthIdxOf first.timestamp)
      (monthIdxOf (rest.getLastD first).timestamp)).map
        (fun i : Int =>
          ({ monthKey := i
             monthLabel := monthLabelOf i
             timestamp := monthStartTime i
             amount := 0
               + (((first :: rest).filter
                    (fun d => monthIdxOf d.timestamp == i)).map
                   Deposit.amount).sum
             details := []
               ++ ((first :: rest).filter
                    (fun d => monthIdxOf d.timestamp == i)).map
                   (fun d => (d.dateLabel, d.amount)) } : MonthEntry)))).Pairwise
      (fun a b => a.timestamp ≤ b.timestamp) := by
    refine List.pairwise_map.mpr ?_
    refine List.Pairwise.imp ?_ (monthRange_pairwise _ _)
    intro i j hij
    show monthStartTime i ≤ monthStartTime j
    simp only [monthStartTime]
    omega
  rw [sortJS_of_sorted _ (fun e : MonthEntry => e.timestamp) (sub_cmp_iff _)
    hsorted] at hout2
  refine ⟨?_, ?_, ?_, ?_⟩
  · rw [hout2, List.map_map]
    have hid : ∀ i ∈ monthRange (monthIdxOf first.timestamp)
        (monthIdxOf (rest.getLastD first).timestamp),
        (MonthEntry.monthKey ∘ (fun i : Int =>
          ({ monthKey := i
             monthLabel := monthLabelOf i
             timestamp := monthStartTime i
             amount := 0
               + (((first :: rest).filter
                    (fun d => monthIdxOf d.timestamp == i)).map
                   Deposit.amount).sum
             details := []
               ++ ((first :: rest).filter
                    (fun d => monthIdxOf d.timestamp == i)).map
                   (fun d => (d.dateLabel, d.amount)) } : MonthEntry))) i = id i :=
      fun i _ => rfl
    rw [List.map_congr_left hid, List.map_id, hfirst_ts, hlast_ts]
  · intro e he
    rw [hout2] at he
    rcases List.mem_map.mp he with ⟨i, _, rfl⟩
    simp only [List.nil_append, List.map_map, zero_add]
    exact congrArg List.sum (List.map_congr_left (fun d _ => rfl)).symm
  · intro e he
    rw [hout2] at he
    rcases List.mem_map.mp he with ⟨i, _, rfl⟩
    simp only [List.nil_append]
    refine List.Perm.trans ?_ ((hSperm.filter _).map _)
    exact List.Perm.refl _
  · intro e he hnone
    rw [hout2] at he
    rcases List.mem_map.mp he with ⟨i, _, rfl⟩
    have hfilter : (first :: rest).filter
        (fun d => monthIdxOf d.timestamp == i) = [] := by
      rw [List.filter_eq_nil_iff]
      intro d hd
      simp only [beq_iff_eq]
      exact hnone d (hSperm.subset hd)
    constructor
    · show 0 + (((first :: rest).filter
          (fun d => monthIdxOf d.timestamp == i)).map Deposit.amount).sum = 0
      rw [hfilter]
      simp
    · show [] ++ ((first :: rest).filter
          (fun d => monthIdxOf d.timestamp == i)).map
            (fun d => (d.dateLabel, d.amount)) = []
      rw [hfilter]
      rfl

/-- Witness for C8, replaying the continuity scenario of the spec:
deposits in January and April 2024 produce four buckets, with
February and March present at amount 0; the bucket keys run over the
full month range and every bucket amount is the sum of its detail
pairs. -/
theorem c8_deposit_buckets_witness :
    (depositsByMonth [depJan, depApr]).map (fun e => (e.monthLabel, e.amount))
        = [("01/2024", 1000), ("02/2024", 0), ("03/2024", 0), ("04/2024", 2500)]
    ∧ (∃ d1 d2 : Deposit, [depJan, depApr].filterMap depositOf = [d1, d2]
        ∧ (depositsByMonth [depJan, depApr]).map MonthEntry.monthKey
            = monthRange (monthIdxOf d1.timestamp) (monthIdxOf d2.timestamp))
    ∧ (∀ e ∈ depositsByMonth [depJan, depApr],
        e.amount = (e.details.map Prod.snd).sum) := by
  obtain ⟨d1, d2, hD⟩ : ∃ d1 d2 : Deposit,
      [depJan, depApr].filterMap depositOf = [d1, d2] :=
    ⟨_, _, by with_unfolding_all rfl⟩
  have hmem1 : d1 ∈ [depJan, depApr].filterMap depositOf := by
    rw [hD]; exact List.mem_cons_self _ _
  have hmem2 : d2 ∈ [depJan, depApr].filterMap depositOf := by
    rw [hD]; exact List.mem_cons_of_mem _ (List.mem_cons_self _ _)
  have h12 : d1.timestamp ≤ d2.timestamp := by
    have : ([depJan, depApr].filterMap depositOf).map Deposit.timestamp
        = [d1.timestamp, d2.timestamp] := by rw [hD]; rfl
    have hconc : ([depJan, depApr].filterMap depositOf).map Deposit.timestamp
        = [parseDateToTimestamp (jsTrim depJan.date),
           parseDateToTimestamp (jsTrim depApr.date)] := by
      with_unfolding_all rfl
    rw [this] at hconc
    injection hconc with e1 hconc
    injection hconc with e2 _
    rw [e1, e2]
    decide
  have hbound : ∀ d ∈ [depJan, depApr].filterMap depositOf,
      d1.timestamp ≤ d.timestamp ∧ d.timestamp ≤ d2.timestamp := by
    intro d hd
    rw [hD] at hd
    rcases List.mem_cons.mp hd with rfl | hd2
    · exact ⟨le_refl _, h12⟩
    · rcases List.mem_cons.mp hd2 with rfl | hd3
      · exact ⟨h12, le_refl _⟩
      · simp at hd3
  have h := c8_deposit_buckets [depJan, depApr] d1 d2 hmem1 hmem2 hbound
  exact ⟨by with_unfolding_all rfl, ⟨d1, d2, hD, h.1⟩, h.2.1⟩
